import Mathlib

/-!
# Verification of the stock-data-fetcher merge and normalization core

A shallow embedding, in Lean 4, of the core logic of the
`stock-data-fetcher` repository:

* `utils.py` — symbol normalization (`normalize_symbols`), date
  formatting (`format_date_for_filename`);
* `merger.py` — `_strip_symbol_suffix` and
  `merge_price_institution_daytrade`;
* `institutional_fetcher.py` / `daytrade_fetcher.py` — the per-cell
  numeric coercion applied by the collectors;
* `cli.py` — the merged-output filename template.

Data frames are modelled as tables whose rows are association lists from
column labels to cell values.  Floating-point cells are modelled as exact
rationals together with explicit `na` (NaN/NA), `inf` and `neginf`
values; the claims under verification only concern null/zero/sign
behavior and small exact quotients, none of which depend on rounding.
Fallible pandas operations are modelled in the `Except String` monad.
Python's in-place column assignments are additionally rendered as a
store-passing program (`mergeProg`) over explicit table references, used
to verify the frame property that the inputs are never mutated.
-/

set_option autoImplicit false
set_option maxRecDepth 16000

namespace StockFetcher

/-! ## String primitives (Python `str.strip`, `split`, `lower`, `in`) -/

/-- Python `str.strip` on a list of characters: drop whitespace from both
ends. -/
def trimL (l : List Char) : List Char :=
  ((l.dropWhile Char.isWhitespace).reverse.dropWhile Char.isWhitespace).reverse

/-- Python `str.strip` on strings. -/
def pyStrip (s : String) : String := String.mk (trimL s.data)

/-- Python `sub in s` (substring containment). -/
def containsSub (hay needle : String) : Bool :=
  hay.data.tails.any (fun t => needle.data.isPrefixOf t)

/-- Python `str.lower` (modelled on the char level). -/
def lowerStr (s : String) : String := String.mk (s.data.map Char.toLower)

/-! ## `utils.normalize_symbols` -/

/-- The regex `_NUMERIC_TW = ^\d{3,6}$`: between three and six decimal
digits (digits modelled as ASCII digits, the only ones appearing in
ticker codes). -/
def isNumericTW (s : String) : Bool :=
  s.data.all Char.isDigit && decide (3 ≤ s.data.length) && decide (s.data.length ≤ 6)

/-- Qualification: append the fixed market suffix, `s2 = s2 + ".TW"`. -/
def qualifyTW (s : String) : String := s ++ ".TW"

/-- The per-token transform of `normalize_symbols`: strip, then qualify a
numeric ticker.  A whitespace-only token maps to `""` (and is discarded
by the loop below, exactly as `if not s2: continue` does before
qualification — qualification never produces `""`). -/
def normToken (autoTW : Bool) (s : String) : String :=
  let s2 := pyStrip s
  if autoTW && isNumericTW s2 then qualifyTW s2 else s2

/-- The loop body of `normalize_symbols`, with the `seen` set made
explicit as a list. -/
def normAux (autoTW : Bool) : List String → List String → List String
  | _, [] => []
  | seen, s :: rest =>
    let s2 := normToken autoTW s
    if s2 = "" then normAux autoTW seen rest
    else if s2 ∈ seen then normAux autoTW seen rest
    else s2 :: normAux autoTW (s2 :: seen) rest

/-- `utils.normalize_symbols`. -/
def normalize_symbols (raw : List String) (autoTW : Bool) : List String :=
  normAux autoTW [] raw

/-- Specification-side helper: keep the first occurrence of each element,
drop later duplicates. -/
def firstDedup : List String → List String
  | [] => []
  | a :: l => a :: firstDedup (l.filter (fun b => decide ¬(b = a)))
termination_by l => l.length
decreasing_by
  simp only [List.length_cons]
  exact Nat.lt_succ_of_le (List.length_filter_le _ _)

/-! ### Lemmas about `trimL` -/

theorem dropWhile_dropWhile (p : Char → Bool) (l : List Char) :
    (l.dropWhile p).dropWhile p = l.dropWhile p := by
  induction l with
  | nil => rfl
  | cons a t ih =>
    by_cases h : p a = true
    · simp [List.dropWhile_cons, h, ih]
    · simp [List.dropWhile_cons, h]

theorem dropWhile_head_false {p : Char → Bool} {l : List Char} {c : Char}
    {t : List Char} (h : l.dropWhile p = c :: t) : p c = false := by
  induction l with
  | nil => simp at h
  | cons a u ih =>
    by_cases ha : p a = true
    · exact ih (by simpa [List.dropWhile_cons, ha] using h)
    · rw [List.dropWhile_cons] at h
      simp only [ha] at h
      cases h
      simpa using ha

theorem getLast?_dropWhile (p : Char → Bool) (l : List Char) :
    (l.dropWhile p).getLast? = l.getLast? ∨ l.dropWhile p = [] := by
  induction l with
  | nil => exact Or.inr rfl
  | cons a t ih =>
    by_cases ha : p a = true
    · rw [List.dropWhile_cons]
      simp only [ha, if_true]
      rcases ih with h | h
      · rcases t with _ | ⟨b, u⟩
        · right; rfl
        · left; rw [h, List.getLast?_cons_cons]
      · right; exact h
    · rw [List.dropWhile_cons]
      simp only [ha, if_false]
      exact Or.inl rfl

/-- `trimL` fixes a list whose first and last characters are not
whitespace. -/
theorem trimL_eq_self {l : List Char}
    (h1 : ∀ c t, l = c :: t → c.isWhitespace = false)
    (h2 : ∀ c, l.getLast? = some c → c.isWhitespace = false) :
    trimL l = l := by
  have hd : l.dropWhile Char.isWhitespace = l := by
    cases l with
    | nil => rfl
    | cons a t =>
      rw [List.dropWhile_cons, h1 a t rfl]
      simp
  have hrev : l.reverse.dropWhile Char.isWhitespace = l.reverse := by
    cases hr : l.reverse with
    | nil => simp [hr]
    | cons a t =>
      rw [List.dropWhile_cons]
      have : l.getLast? = some a := by
        rw [← List.head?_reverse]
        simp [hr]
      rw [h2 a this]
      simp
  unfold trimL
  rw [hd, hrev, List.reverse_reverse]

/-- Characters of `trimL l` are characters of `l`. -/
theorem mem_trimL {c : Char} {l : List Char} (h : c ∈ trimL l) : c ∈ l := by
  unfold trimL at h
  rw [List.mem_reverse] at h
  have h1 := (List.dropWhile_sublist (l := (l.dropWhile Char.isWhitespace).reverse)
    (p := Char.isWhitespace)).mem h
  rw [List.mem_reverse] at h1
  exact (List.dropWhile_sublist (l := l) (p := Char.isWhitespace)).mem h1

/-- `trimL` is idempotent. -/
theorem trimL_trimL (l : List Char) : trimL (trimL l) = trimL l := by
  rcases hz : trimL l with _ | ⟨c, t⟩
  · simp [trimL, hz]
  · rw [← hz]
    -- abbreviations: Z is the list whose reverse is trimL l
    have hzr : ((l.dropWhile Char.isWhitespace).reverse.dropWhile
        Char.isWhitespace).reverse = c :: t := hz
    -- head of trimL l is not whitespace
    have hhead : ∀ c' t', trimL l = c' :: t' → c'.isWhitespace = false := by
      intro c' t' hz'
      have hzr' : ((l.dropWhile Char.isWhitespace).reverse.dropWhile
          Char.isWhitespace).reverse = c' :: t' := hz'
      have hlastZ : ((l.dropWhile Char.isWhitespace).reverse.dropWhile
          Char.isWhitespace).getLast? = some c' := by
        rw [← List.head?_reverse, hzr']
        rfl
      rcases getLast?_dropWhile Char.isWhitespace
          (l.dropWhile Char.isWhitespace).reverse with h | h
      · rw [h, List.getLast?_reverse] at hlastZ
        rcases hdl : l.dropWhile Char.isWhitespace with _ | ⟨a, u⟩
        · rw [hdl] at hlastZ; simp at hlastZ
        · rw [hdl] at hlastZ
          simp only [List.head?_cons, Option.some.injEq] at hlastZ
          subst hlastZ
          exact dropWhile_head_false hdl
      · rw [h] at hlastZ; simp at hlastZ
    -- last of trimL l is not whitespace
    have hlast : ∀ d, (trimL l).getLast? = some d → d.isWhitespace = false := by
      intro d hdlast
      have : ((l.dropWhile Char.isWhitespace).reverse.dropWhile
          Char.isWhitespace).head? = some d := by
        have := hdlast
        unfold trimL at this
        rwa [List.getLast?_reverse] at this
      rcases hdZ : (l.dropWhile Char.isWhitespace).reverse.dropWhile
          Char.isWhitespace with _ | ⟨a, u⟩
      · rw [hdZ] at this; simp at this
      · rw [hdZ] at this
        simp only [List.head?_cons, Option.some.injEq] at this
        subst this
        exact dropWhile_head_false hdZ
    exact trimL_eq_self hhead hlast

/-- `pyStrip` is idempotent. -/
theorem pyStrip_pyStrip (s : String) : pyStrip (pyStrip s) = pyStrip s := by
  simp [pyStrip, trimL_trimL]

/-! ### Lemmas about `normToken` and `normalize_symbols` -/

theorem isDigit_not_ws {c : Char} (h : c.isDigit = true) :
    c.isWhitespace = false := by
  cases hw : c.isWhitespace with
  | false => rfl
  | true =>
    exfalso
    have : ((c = ' ' ∨ c = '\t') ∨ c = '\r') ∨ c = '\n' := by
      simpa [Char.isWhitespace] using hw
    rcases this with ((rfl | rfl) | rfl) | rfl <;> simp [Char.isDigit] at h

/-- The data of a qualified numeric ticker is untouched by stripping. -/
theorem trimL_digits_tw {s : String} (h : isNumericTW s = true) :
    trimL (s.data ++ ['.', 'T', 'W']) = s.data ++ ['.', 'T', 'W'] := by
  have hall : s.data.all Char.isDigit = true := by
    simp only [isNumericTW, Bool.and_eq_true] at h
    exact h.1.1
  have hlen : 3 ≤ s.data.length := by
    simp only [isNumericTW, Bool.and_eq_true, decide_eq_true_eq] at h
    exact h.1.2
  apply trimL_eq_self
  · intro c t hct
    rcases hd : s.data with _ | ⟨a, u⟩
    · rw [hd] at hlen; simp at hlen
    · rw [hd] at hct
      simp only [List.cons_append, List.cons.injEq] at hct
      have ha : a.isDigit = true := by
        rw [hd] at hall
        simp only [List.all_cons, Bool.and_eq_true] at hall
        exact hall.1
      rw [← hct.1]
      exact isDigit_not_ws ha
  · intro c hc
    have : (s.data ++ ['.', 'T', 'W']).getLast? = some 'W' := by
      have : s.data ++ ['.', 'T', 'W'] = (s.data ++ ['.', 'T']) ++ ['W'] := by
        simp
      rw [this, List.getLast?_concat]
    rw [this] at hc
    cases hc
    rfl

theorem data_qualify (s : String) :
    (qualifyTW s).data = s.data ++ ['.', 'T', 'W'] := by
  simp [qualifyTW, String.data_append]

theorem pyStrip_qualify {s : String} (h : isNumericTW s = true) :
    pyStrip (qualifyTW s) = qualifyTW s := by
  unfold pyStrip
  rw [data_qualify, trimL_digits_tw h, ← data_qualify]

/-- A qualified symbol is not itself a numeric ticker (it contains `.`). -/
theorem isNumericTW_qualify (s : String) : isNumericTW (qualifyTW s) = false := by
  simp [isNumericTW, data_qualify, List.all_append]

theorem isNumericTW_pyStrip_eq (s : String) (h : pyStrip s = s) :
    isNumericTW (pyStrip s) = isNumericTW s := by rw [h]

/-- `normToken` is idempotent. -/
theorem normToken_normToken (b : Bool) (s : String) :
    normToken b (normToken b s) = normToken b s := by
  simp only [normToken]
  by_cases hq : (b && isNumericTW (pyStrip s)) = true
  · rw [if_pos hq]
    rcases Bool.and_eq_true _ _ |>.mp hq with ⟨hb, hnum⟩
    rw [pyStrip_qualify hnum, isNumericTW_qualify]
    simp
  · rw [if_neg hq, pyStrip_pyStrip, if_neg hq]

/-- `normToken` of a nonempty result is nonempty. -/
theorem normToken_ne_empty {b : Bool} {s : String}
    (h : ¬ normToken b s = "") : ¬ pyStrip s = "" := by
  intro he
  apply h
  unfold normToken
  rw [he]
  simp [isNumericTW, he]

/-- Predicate for tokens that survive the loop given the `seen` set. -/
def keepTok (seen : List String) (t : String) : Bool :=
  decide (¬t = "") && decide (¬t ∈ seen)

theorem keepTok_cons (a : String) (seen : List String) (x : String) :
    (decide (¬x = a) && keepTok seen x) = keepTok (a :: seen) x := by
  by_cases h1 : x = "" <;> by_cases h2 : x = a <;> by_cases h3 : x ∈ seen <;>
    simp [keepTok, h1, h2, h3]

/-- The loop of `normalize_symbols` computes first-occurrence
deduplication of the mapped, nonempty tokens. -/
theorem normAux_eq_firstDedup (b : Bool) (seen : List String) (l : List String) :
    normAux b seen l = firstDedup ((l.map (normToken b)).filter (keepTok seen)) := by
  induction l generalizing seen with
  | nil => simp [normAux, firstDedup]
  | cons s rest ih =>
    simp only [normAux, List.map_cons, List.filter_cons]
    by_cases h1 : normToken b s = ""
    · simp only [h1, if_true]
      have : keepTok seen "" = false := by simp [keepTok]
      rw [this]
      simp only [Bool.false_eq_true, if_false]
      exact ih seen
    · by_cases h2 : normToken b s ∈ seen
      · simp only [h1, if_false, h2, if_true]
        have : keepTok seen (normToken b s) = false := by simp [keepTok, h1, h2]
        rw [this]
        simp only [Bool.false_eq_true, if_false]
        exact ih seen
      · simp only [h1, if_false, h2, if_true]
        have : keepTok seen (normToken b s) = true := by simp [keepTok, h1, h2]
        rw [this]
        simp only [if_true]
        rw [firstDedup]
        congr 1
        rw [ih (normToken b s :: seen), List.filter_filter]
        congr 1
        apply List.filter_congr
        intro x _
        exact (keepTok_cons (normToken b s) seen x).symm

theorem firstDedup_subset : ∀ (l : List String) (x : String),
    x ∈ firstDedup l → x ∈ l
  | [], x, h => by simp [firstDedup] at h
  | a :: l, x, h => by
    rw [firstDedup] at h
    rcases List.mem_cons.mp h with rfl | h
    · exact List.mem_cons_self _ _
    · have := firstDedup_subset _ _ h
      exact List.mem_cons_of_mem _ (List.mem_of_mem_filter this)
termination_by l => l.length
decreasing_by
  simp only [List.length_cons]
  exact Nat.lt_succ_of_le (List.length_filter_le _ _)

theorem firstDedup_nodup : ∀ l : List String, (firstDedup l).Nodup
  | [] => by simp [firstDedup]
  | a :: l => by
    rw [firstDedup]
    refine List.nodup_cons.mpr ⟨?_, firstDedup_nodup _⟩
    intro hmem
    have h := firstDedup_subset _ _ hmem
    have := List.of_mem_filter h
    simp at this
termination_by l => l.length
decreasing_by
  simp only [List.length_cons]
  exact Nat.lt_succ_of_le (List.length_filter_le _ _)

/-- `normAux` is the identity on a deduplicated list of fixed, nonempty,
unseen tokens. -/
theorem normAux_fixed (b : Bool) :
    ∀ (l seen : List String),
      (∀ t ∈ l, normToken b t = t) → (∀ t ∈ l, ¬t = "") → l.Nodup →
      (∀ t ∈ l, t ∉ seen) → normAux b seen l = l := by
  intro l
  induction l with
  | nil => intro seen _ _ _ _; rfl
  | cons t rest ih =>
    intro seen hfix hne hnd hseen
    have hft : normToken b t = t := hfix t (List.mem_cons_self _ _)
    have hnet : ¬t = "" := hne t (List.mem_cons_self _ _)
    have hnst : t ∉ seen := hseen t (List.mem_cons_self _ _)
    simp only [normAux, hft, hnet, if_false, hnst, if_true]
    congr 1
    apply ih
    · intro x hx; exact hfix x (List.mem_cons_of_mem _ hx)
    · intro x hx; exact hne x (List.mem_cons_of_mem _ hx)
    · exact (List.nodup_cons.mp hnd).2
    · intro x hx
      rw [List.mem_cons, not_or]
      exact ⟨fun he => (List.nodup_cons.mp hnd).1 (he ▸ hx),
        hseen x (List.mem_cons_of_mem _ hx)⟩

theorem normalize_mem_props {raw : List String} {b : Bool} {x : String}
    (h : x ∈ normalize_symbols raw b) : normToken b x = x ∧ ¬x = "" := by
  rw [normalize_symbols, normAux_eq_firstDedup] at h
  have hf := firstDedup_subset _ _ h
  have hk := List.of_mem_filter hf
  have hm := List.mem_of_mem_filter hf
  constructor
  · rcases List.mem_map.mp hm with ⟨s, _, rfl⟩
    exact normToken_normToken b s
  · have hkk : keepTok [] x = true := hk
    simp only [keepTok, Bool.and_eq_true, decide_eq_true_eq] at hkk
    exact hkk.1

theorem normalize_nodup (raw : List String) (b : Bool) :
    (normalize_symbols raw b).Nodup := by
  rw [normalize_symbols, normAux_eq_firstDedup]
  exact firstDedup_nodup _

/-- C5: `normalize_symbols` is idempotent; its output is exactly the
first-occurrence deduplication of the stripped/qualified tokens with
whitespace-only tokens discarded; and the spec's worked example holds. -/
theorem c5_normalize_symbols_props (raw : List String) (b : Bool) :
    normalize_symbols (normalize_symbols raw b) b = normalize_symbols raw b
    ∧ normalize_symbols raw b
        = firstDedup (List.filter (fun t => decide (¬t = ""))
            (raw.map (normToken b)))
    ∧ (normalize_symbols raw b).Nodup
    ∧ normalize_symbols ["2330", "AAPL", "2330"] true = ["2330.TW", "AAPL"] := by
  refine ⟨?_, ?_, normalize_nodup raw b, by decide⟩
  · show normAux b [] (normalize_symbols raw b) = normalize_symbols raw b
    apply normAux_fixed
    · intro t ht; exact (normalize_mem_props ht).1
    · intro t ht; exact (normalize_mem_props ht).2
    · exact normalize_nodup raw b
    · intro t _; simp
  · rw [normalize_symbols, normAux_eq_firstDedup]
    congr 1
    apply List.filter_congr
    intro x _
    simp [keepTok]

/-! ## `merger._strip_symbol_suffix` (bare-code extraction) -/

/-- `_strip_symbol_suffix`: `str(symbol).split('.')[0].strip()` — the text
before the first `.`, stripped. -/
def strip_symbol_suffix (s : String) : String :=
  pyStrip (String.mk (s.data.takeWhile (fun c => decide (¬c = '.'))))

theorem takeWhile_all {p : Char → Bool} :
    ∀ l : List Char, (∀ c ∈ l, p c = true) → l.takeWhile p = l := by
  intro l h
  induction l with
  | nil => rfl
  | cons a t ih =>
    rw [List.takeWhile_cons, h a (List.mem_cons_self _ _)]
    simp only [if_true]
    rw [ih (fun c hc => h c (List.mem_cons_of_mem _ hc))]

theorem takeWhile_notdot_append (m : List Char) :
    ∀ l : List Char, (∀ c ∈ l, ¬c = '.') →
      (l ++ '.' :: m).takeWhile (fun c => decide (¬c = '.')) = l := by
  intro l h
  induction l with
  | nil => simp [List.takeWhile_cons]
  | cons a t ih =>
    rw [List.cons_append, List.takeWhile_cons]
    have : decide (¬a = '.') = true := by
      simp [h a (List.mem_cons_self _ _)]
    rw [this]
    simp only [if_true]
    rw [ih (fun c hc => h c (List.mem_cons_of_mem _ hc))]

/-- C6 (amended): on a whitespace-trimmed code with no internal `.`,
bare-code extraction is a left-inverse of qualification and fixes the
bare code; bare-code extraction is idempotent on every string. -/
theorem c6_strip_symbol_suffix_props (c : String)
    (h1 : pyStrip c = c) (h2 : ∀ ch ∈ c.data, ¬ch = '.') :
    strip_symbol_suffix (qualifyTW c) = c
    ∧ strip_symbol_suffix c = c
    ∧ ∀ s : String, strip_symbol_suffix (strip_symbol_suffix s)
        = strip_symbol_suffix s := by
  refine ⟨?_, ?_, ?_⟩
  · unfold strip_symbol_suffix
    rw [data_qualify]
    have : c.data ++ ['.', 'T', 'W'] = c.data ++ '.' :: ['T', 'W'] := rfl
    rw [this, takeWhile_notdot_append _ _ h2]
    exact h1
  · unfold strip_symbol_suffix
    rw [takeWhile_all c.data (by intro x hx; simpa using h2 x hx)]
    exact h1
  · intro s
    unfold strip_symbol_suffix
    have hsub : ∀ ch ∈ (pyStrip (String.mk
        (s.data.takeWhile (fun c => decide (¬c = '.'))))).data, ¬ch = '.' := by
      intro ch hch
      have h3 : ch ∈ s.data.takeWhile (fun c => decide (¬c = '.')) :=
        mem_trimL hch
      have := List.mem_takeWhile_imp h3
      simpa using this
    rw [takeWhile_all _ (by intro x hx; simpa using hsub x hx)]
    exact pyStrip_pyStrip _

/-! ## Date formatting and the merged-output filename (`utils.py`, `cli.py`) -/

/-- A calendar date as carried by `datetime.date`. -/
structure PyDate where
  y : ℕ
  m : ℕ
  d : ℕ
deriving DecidableEq

/-- `d.strftime("%Y%m%d")`, modelled for four-digit years (the zero-padded
digits of year, month and day; years above 9999 do not occur for calendar
data). -/
def fmtYYYYMMDD (dt : PyDate) : String :=
  String.mk [Nat.digitChar (dt.y / 1000 % 10), Nat.digitChar (dt.y / 100 % 10),
    Nat.digitChar (dt.y / 10 % 10), Nat.digitChar (dt.y % 10),
    Nat.digitChar (dt.m / 10 % 10), Nat.digitChar (dt.m % 10),
    Nat.digitChar (dt.d / 10 % 10), Nat.digitChar (dt.d % 10)]

/-- `utils.format_date_for_filename`. -/
def format_date_for_filename : Option PyDate → String
  | some d => fmtYYYYMMDD d
  | none => "latest"

/-- The merged-output filename template of `cli.main`:
`f"{symbol}_TWSE_MERGED_{...}_{...}.csv"`. -/
def mergedFilename (symbol : String) (start : PyDate) (e : Option PyDate) : String :=
  symbol ++ "_TWSE_MERGED_" ++ format_date_for_filename (some start) ++ "_"
    ++ format_date_for_filename e ++ ".csv"

theorem digitChar_mod_isDigit (n : ℕ) : (Nat.digitChar (n % 10)).isDigit = true := by
  have h : n % 10 < 10 := Nat.mod_lt _ (by norm_num)
  generalize hg : n % 10 = k at h ⊢
  interval_cases k <;> rfl

/-- C8 (amended): the merged artifact's filename is exactly
`{symbol}_TWSE_MERGED_{start}_{end-or-latest}.csv`, with dates rendered
as eight digits (`YYYYMMDD`) and a missing end date rendered `latest`. -/
theorem c8_merged_filename (symbol : String) (s : PyDate) (e : Option PyDate) :
    mergedFilename symbol s e
      = symbol ++ "_TWSE_MERGED_" ++ format_date_for_filename (some s) ++ "_"
        ++ format_date_for_filename e ++ ".csv"
    ∧ format_date_for_filename none = "latest"
    ∧ (format_date_for_filename (some s)).data.length = 8
    ∧ (format_date_for_filename (some s)).data.all Char.isDigit = true := by
  refine ⟨rfl, rfl, rfl, ?_⟩
  simp [format_date_for_filename, fmtYYYYMMDD, digitChar_mod_isDigit]

/-- C8 counterexample: the artifact name contains `_TWSE_MERGED_`, not the
bare `_MERGED_` of the claim. -/
theorem c8_counterexample :
    mergedFilename "2330.TW" ⟨2025, 1, 1⟩ none
      = "2330.TW_TWSE_MERGED_20250101_latest.csv"
    ∧ ¬(mergedFilename "2330.TW" ⟨2025, 1, 1⟩ none
      = "2330.TW_MERGED_20250101_latest.csv") := by
  constructor <;> decide

/-! ## Numeric coercion (collectors) -/

/-- `str.replace(",", "")`. -/
def removeCommas (s : String) : String :=
  String.mk (s.data.filter (fun c => decide (¬c = ',')))

/-- The value of a list of decimal digits. -/
def digitsVal (l : List Char) : ℕ :=
  l.foldl (fun a c => 10 * a + (c.toNat - 48)) 0

/-- Model of numeric parsing as performed by `pd.to_numeric` /
`float(...)` on a single cell: optional sign, an integer part and an
optional fractional part (scientific notation is not exercised by the
verified claims and is left out).  Surrounding whitespace is tolerated;
anything else fails. -/
def parseNumQ (s : String) : Option ℚ :=
  let l := trimL s.data
  let sign : ℚ := if l.head? = some '-' then -1 else 1
  let l1 := if l.head? = some '-' ∨ l.head? = some '+' then l.tail else l
  let ip := l1.takeWhile Char.isDigit
  let rest := l1.dropWhile Char.isDigit
  match rest with
  | [] => if ip.isEmpty then none else some (sign * (digitsVal ip : ℚ))
  | '.' :: fr =>
    if fr.all Char.isDigit && !(ip.isEmpty && fr.isEmpty) then
      some (sign * ((digitsVal ip : ℚ) + (digitsVal fr : ℚ) / (10 : ℚ) ^ fr.length))
    else none
  | _ => none

/-- `pd.to_numeric(x.str.replace(",", ""), errors="coerce")` on one cell:
total, returns `none` for an unparsable cell. -/
def to_numeric_coerce (s : String) : Option ℚ :=
  parseNumQ (removeCommas s)

/-- `.astype("Int64")` applied to the float column produced by a coercing
`pd.to_numeric`: missing stays missing, an integral float casts, and a
non-integral float raises `TypeError`. -/
def astypeInt64OfFloat : Option ℚ → Except String (Option ℤ)
  | none => Except.ok none
  | some q =>
    if q.den = 1 then Except.ok (some q.num)
    else Except.error "TypeError: cannot safely cast non-equivalent float64 to int64"

/-- The numeric-cell pipeline of `collect_t86`. -/
def t86_coerce_cell (s : String) : Except String (Option ℤ) :=
  astypeInt64OfFloat (to_numeric_coerce s)

/-- The numeric-cell pipeline of `collect_daytrade` (same shape as T86). -/
def daytrade_coerce_cell (s : String) : Except String (Option ℤ) :=
  astypeInt64OfFloat (to_numeric_coerce s)

/-- Strict integer-literal parsing: optional sign and at least one digit,
surrounding whitespace tolerated. -/
def parseIntStrict (s : String) : Option ℤ :=
  let l := trimL s.data
  let p : ℤ × List Char :=
    match l with
    | '-' :: t => (-1, t)
    | '+' :: t => (1, t)
    | _ => (1, l)
  if (!p.2.isEmpty && p.2.all Char.isDigit) = true then
    some (p.1 * (digitsVal p.2 : ℤ))
  else none

/-- The numeric-cell pipeline of `collect_bfi82u`:
`.astype(str).str.replace(",", "").astype("Int64")` — a direct
string-to-Int64 cast, which raises on any cell that is not an integer
literal (there is no coercing `pd.to_numeric` here). -/
def bfi_coerce_cell (s : String) : Except String (Option ℤ) :=
  match parseIntStrict (removeCommas s) with
  | some z => Except.ok (some z)
  | none => Except.error "ValueError: invalid literal for Int64"

/-- The day-trade-ratio pipeline: strip `,` and `%`, coerce, divide by
100; a missing value propagates. -/
def daytrade_ratio_coerce (s : String) : Option ℚ :=
  (parseNumQ (String.mk
    ((removeCommas s).data.filter (fun c => decide (¬c = '%'))))).map
    (fun q => q / 100)

/-- C3: a malformed numeric cell is coerced to a missing value by the T86
and day-trade pipelines, but the BFI82U pipeline raises on the same cell
(its `astype("Int64")` is applied directly to strings); the spec's
coercion examples also hold. -/
theorem c3_coercion_cells :
    t86_coerce_cell "N/A" = Except.ok none
    ∧ daytrade_coerce_cell "N/A" = Except.ok none
    ∧ bfi_coerce_cell "N/A" = Except.error "ValueError: invalid literal for Int64"
    ∧ to_numeric_coerce "1,234" = some 1234
    ∧ to_numeric_coerce "N/A" = none
    ∧ daytrade_ratio_coerce "12.5%" = some (1 / 8)
    ∧ bfi_coerce_cell "1,234" = Except.ok (some 1234) := by
  refine ⟨rfl, rfl, rfl, by with_unfolding_all rfl, rfl,
    by with_unfolding_all rfl, by with_unfolding_all rfl⟩

/-! ## The data-frame model

Rows are association lists from column labels to cell values; a lookup of
an absent label yields `na`, matching the null-filled view a pandas left
join presents.  A cell is a missing value, a string, an exact rational
(modelling a float), a calendar date, a timestamp (date plus time of
day), a date obtained from an epoch number (`dnum`, the result of
`pd.to_datetime` on a numeric cell, whose exact calendar value is
immaterial to the claims), or a signed infinity (the result of dividing a
nonzero float by zero). -/

inductive CellVal : Type
  | na
  | str (s : String)
  | num (q : ℚ)
  | date (y m d : ℕ)
  | ts (y m d hms : ℕ)
  | dnum (q : ℚ)
  | inf
  | neginf
deriving DecidableEq, Repr

abbrev Row : Type := List (String × CellVal)

/-- The index of a data frame: its name, whether it is datetime-typed
(i.e. has a `.date` attribute), and — when datetime-typed — its
materialized calendar dates. -/
structure IndexInfo where
  name : Option String
  isDate : Bool
  dates : List CellVal
deriving DecidableEq, Repr

def defaultIdx : IndexInfo := ⟨none, false, []⟩

structure Table where
  cols : List String
  idx : IndexInfo
  rows : List Row
deriving DecidableEq, Repr

def emptyTable : Table := ⟨[], defaultIdx, []⟩

/-- `df.empty`: no rows or no columns. -/
def tableEmpty (t : Table) : Bool := t.rows.isEmpty || t.cols.isEmpty

/-- Reading one cell; an absent label reads as missing. -/
def getCell (r : Row) (c : String) : CellVal := (r.lookup c).getD CellVal.na

/-- One row under a column assignment: replace the value at an existing
label, or append the new label. -/
def updateRow (r : Row) (c : String) (v : CellVal) : Row :=
  if r.any (fun p => p.1 == c) then
    r.map (fun p => if p.1 == c then (p.1, v) else p)
  else r ++ [(c, v)]

/-- `df[c] = <rowwise expression>` (vectorized: reads the original row). -/
def setColF (t : Table) (c : String) (f : Row → CellVal) : Table :=
  { cols := if c ∈ t.cols then t.cols else t.cols ++ [c]
    idx := t.idx
    rows := t.rows.map (fun r => updateRow r c (f r)) }

/-- `df[c] = <array>` (positional, used for `df.index.date`). -/
def setColL (t : Table) (c : String) (vs : List CellVal) : Table :=
  { cols := if c ∈ t.cols then t.cols else t.cols ++ [c]
    idx := t.idx
    rows := t.rows.mapIdx (fun i r => updateRow r c (vs.getD i CellVal.na)) }

/-- `df.drop(columns=[c], errors="ignore")`. -/
def dropCol (t : Table) (c : String) : Table :=
  { cols := t.cols.filter (fun x => decide (¬x = c))
    idx := t.idx
    rows := t.rows.map (fun r => r.filter (fun p => decide (¬p.1 = c))) }

/-- `str(date(y, m, d))`, i.e. `YYYY-MM-DD` (four-digit years). -/
def dateToStr (y m d : ℕ) : String :=
  String.mk [Nat.digitChar (y / 1000 % 10), Nat.digitChar (y / 100 % 10),
    Nat.digitChar (y / 10 % 10), Nat.digitChar (y % 10), '-',
    Nat.digitChar (m / 10 % 10), Nat.digitChar (m % 10), '-',
    Nat.digitChar (d / 10 % 10), Nat.digitChar (d % 10)]

/-- `.astype(str)` on one cell.  The renderings of the cell kinds that
cannot occur in a code column (floats, dates, infinities) are abstracted,
but always contain a character that is neither a digit nor a letter, so
they never compare equal to a bare code. -/
def strOfCell : CellVal → String
  | .str s => s
  | .num q => if q.den = 1 then toString q.num else "float:" ++ toString q
  | .na => "nan"
  | .date y m d => dateToStr y m d
  | .ts y m d _ => dateToStr y m d ++ " 00:00:00"
  | .dnum q => "dnum:" ++ toString q
  | .inf => "inf"
  | .neginf => "-inf"

/-- ISO `YYYY-MM-DD` parsing with range validation, as accepted by
`pd.to_datetime` on string cells (other textual date layouts are not
exercised by the claims). -/
def parseDateStr (s : String) : Option (ℕ × ℕ × ℕ) :=
  match trimL s.data with
  | [y1, y2, y3, y4, '-', m1, m2, '-', d1, d2] =>
    if ([y1, y2, y3, y4, m1, m2, d1, d2].all Char.isDigit) = true then
      let y := digitsVal [y1, y2, y3, y4]
      let m := digitsVal [m1, m2]
      let d := digitsVal [d1, d2]
      if 1 ≤ m ∧ m ≤ 12 ∧ 1 ≤ d ∧ d ≤ 31 then some (y, m, d) else none
    else none
  | _ => none

/-- `pd.to_datetime(cell).date()` on one cell: a missing value stays
missing (`NaT`), datetimes lose their time of day, numbers convert via
the epoch (`dnum`), parseable strings convert, anything else raises. -/
def normCell : CellVal → Except String CellVal
  | .na => Except.ok .na
  | .date y m d => Except.ok (.date y m d)
  | .ts y m d _ => Except.ok (.date y m d)
  | .num q => Except.ok (.dnum q)
  | .dnum q => Except.ok (.dnum q)
  | .str s =>
    match parseDateStr s with
    | some (y, m, d) => Except.ok (.date y m d)
    | none => Except.error "ValueError: could not parse date"
  | .inf => Except.error "ValueError: could not parse date"
  | .neginf => Except.error "ValueError: could not parse date"

/-- Fallible row-by-row mapping (the first failing cell aborts, as a
raised exception does). -/
def mapRowsE (f : Row → Except String Row) : List Row → Except String (List Row)
  | [] => Except.ok []
  | r :: rs =>
    match f r with
    | Except.error e => Except.error e
    | Except.ok r' =>
      match mapRowsE f rs with
      | Except.error e => Except.error e
      | Except.ok rs' => Except.ok (r' :: rs')

/-- `df[c] = pd.to_datetime(df[c]).dt.date`. -/
def setColDatesE (t : Table) (c : String) : Except String Table :=
  match mapRowsE (fun r =>
      match normCell (getCell r c) with
      | Except.error e => Except.error e
      | Except.ok v => Except.ok (updateRow r c v)) t.rows with
  | Except.error e => Except.error e
  | Except.ok rows =>
    Except.ok { cols := if c ∈ t.cols then t.cols else t.cols ++ [c]
                idx := t.idx
                rows := rows }

/-- Resolution of the price table's date key (`merger.py` lines 21–29):
a `date_col` column is normalized in place; otherwise an index whose
name contains `date` is materialized (an `AttributeError` if it is not
datetime-typed); otherwise a datetime-typed index is materialized;
otherwise a `ValueError`. -/
def dateResolveE (t : Table) (dateCol : String) : Except String Table :=
  if dateCol ∈ t.cols then setColDatesE t dateCol
  else if (match t.idx.name with
           | some n => !(n == "") && containsSub (lowerStr n) "date"
           | none => false) = true then
    if t.idx.isDate then Except.ok (setColL t dateCol t.idx.dates)
    else Except.error "AttributeError: index has no attribute date"
  else if t.idx.isDate then Except.ok (setColL t dateCol t.idx.dates)
  else Except.error "Cannot locate date column in price frame."

/-! ## The merge engine (`merger.merge_price_institution_daytrade`) -/

/-- The institutional acceptance test: `c in ("code", "證券代號") or
"代號" in c`. -/
def instCodePred (c : String) : Bool :=
  c == "code" || c == "證券代號" || containsSub c "代號"

/-- The day-trade acceptance test (also accepts `code_dt` exactly). -/
def dtCodePred (c : String) : Bool :=
  c == "code" || c == "code_dt" || c == "證券代號" || containsSub c "代號"

/-- Institutional code-column resolution: the first column, in column
order, that passes the acceptance test (one list comprehension, then
`[0]`). -/
def findCodeColInst (cols : List String) : Option String :=
  cols.find? instCodePred

/-- Day-trade code-column resolution. -/
def findCodeColDt (cols : List String) : Option String :=
  cols.find? dtCodePred

/-- Row filtering by bare code: `aux[aux[cc].astype(str).str.strip() ==
code].copy()`, or an empty subset when no code column was found. -/
def auxFilter (aux : Table) (code : String)
    (fcc : List String → Option String) : Table :=
  match fcc aux.cols with
  | some cc =>
    { cols := aux.cols, idx := defaultIdx
      rows := aux.rows.filter (fun r => pyStrip (strOfCell (getCell r cc)) == code) }
  | none => { cols := aux.cols, idx := defaultIdx, rows := [] }

/-- The filtered subset with its `date` column normalized when present
(`if "date" in sub.columns: sub["date"] = pd.to_datetime(...).dt.date`). -/
def normSubE (aux : Table) (code : String)
    (fcc : List String → Option String) : Except String Table :=
  let sub0 := auxFilter aux code fcc
  if "date" ∈ sub0.cols then setColDatesE sub0 "date" else Except.ok sub0

/-- Right-hand column labels after pandas suffixing: a label colliding
with a left label gains the suffix (`suffixes=("", sfx)`); the left side
keeps its labels.  The source only merges on differently-named keys
(`date_col` vs `"date"`), which is the case this models. -/
def suffixCols (lcols : List String) (sfx : String) (rcols : List String) :
    List String :=
  rcols.map (fun c => if c ∈ lcols then c ++ sfx else c)

def naPairs (cols : List String) : Row := cols.map (fun c => (c, CellVal.na))

/-- Rows of the right table matching one key value. -/
def matchRows (rt : Table) (rOn : String) (v : CellVal) : List Row :=
  rt.rows.filter (fun r => getCell r rOn == v)

/-- One matched right row, re-labelled with the suffixed column names. -/
def joinedRow (rcolsSuf rcols : List String) (rr : Row) : Row :=
  rcolsSuf.zip (rcols.map (fun c => getCell rr c))

/-- `left.merge(right, left_on, right_on, how="left", suffixes=("", sfx))`:
every left row is kept; a row with no match is null-filled, a row with
several matches fans out. -/
def leftMerge (l : Table) (lOn : String) (r : Table) (rOn : String)
    (sfx : String) : Table :=
  let rcols' := suffixCols l.cols sfx r.cols
  { cols := l.cols ++ rcols'
    idx := defaultIdx
    rows := l.rows.flatMap (fun lr =>
      match matchRows r rOn (getCell lr lOn) with
      | [] => [lr ++ naPairs rcols']
      | ms => ms.map (fun rr => lr ++ joinedRow rcols' r.cols rr)) }

/-- One auxiliary merge block: filter by code, normalize the subset's
date, drop its `name` column, left-join on the date key, then drop the
right-hand `date` column.  Joining a subset without a `date` column is a
`KeyError`. -/
def mergeAuxE (df : Table) (dateCol : String) (aux : Table) (code : String)
    (fcc : List String → Option String) (sfx : String) : Except String Table :=
  match normSubE aux code fcc with
  | Except.error e => Except.error e
  | Except.ok sub =>
    let sub2 := dropCol sub "name"
    if "date" ∈ sub2.cols then
      Except.ok (dropCol (leftMerge df dateCol sub2 "date" sfx) "date")
    else Except.error "KeyError: date"

/-- An auxiliary stage of the merge: skipped when the table is absent or
empty (`if aux_df is not None and not aux_df.empty`). -/
def optAuxStage (df : Table) (dateCol : String) (aux : Option Table)
    (code : String) (fcc : List String → Option String) (sfx : String) :
    Except String Table :=
  match aux with
  | none => Except.ok df
  | some a => if tableEmpty a then Except.ok df
              else mergeAuxE df dateCol a code fcc sfx

/-- Float division on cells, with pandas semantics on the cases the
program can produce: missing operands propagate, a nonzero value divided
by zero is a signed infinity, zero by zero is NaN.  Operands of other
kinds do not occur in the ratio columns (they are collector-coerced
numerics); those cases are absorbed as missing. -/
def divCell : CellVal → CellVal → CellVal
  | .na, _ => .na
  | .num a, .num b =>
    if b = 0 then (if a > 0 then .inf else if a < 0 then .neginf else .na)
    else .num (a / b)
  | _, _ => .na

/-- One ratio derivation (`if vol_col and "x" in df.columns and
df[vol_col].notna().any(): df["x_ratio"] = df["x"] / df[vol_col]`). -/
def ratioStep (t : Table) (numCol ratioCol vc : String) : Table :=
  if (decide (numCol ∈ t.cols)
      && t.rows.any (fun r => !(getCell r vc == CellVal.na))) = true then
    setColF t ratioCol (fun r => divCell (getCell r numCol) (getCell r vc))
  else t

def ratioNames : List String := ["foreign_net_ratio", "daytrade_volume_ratio"]

/-- The ratio-derivation tail of the merge (`merger.py` lines 72–78). -/
def deriveRatios (t : Table) : Table :=
  match (t.cols.filter (fun c =>
      lowerStr c == "volume" || lowerStr c == "vol")).head? with
  | none => t
  | some vc =>
    ratioStep (ratioStep t "foreign_net" "foreign_net_ratio" vc)
      "daytrade_volume" "daytrade_volume_ratio" vc

/-- `merger.merge_price_institution_daytrade`. -/
def merge_price_institution_daytrade (price : Table) (inst dayt : Option Table)
    (symbol dateCol : String) : Except String Table :=
  match dateResolveE price dateCol with
  | Except.error e => Except.error e
  | Except.ok df1 =>
    match optAuxStage df1 dateCol inst (strip_symbol_suffix symbol)
        findCodeColInst "_inst" with
    | Except.error e => Except.error e
    | Except.ok df2 =>
      match optAuxStage df2 dateCol dayt (strip_symbol_suffix symbol)
          findCodeColDt "_dt" with
      | Except.error e => Except.error e
      | Except.ok df3 => Except.ok (deriveRatios df3)

/-- `true` exactly on errors. -/
def exceptErr {α : Type} : Except String α → Bool
  | Except.error _ => true
  | Except.ok _ => false

/-! ### Row-lookup lemmas -/

theorem lookup_cons (c k : String) (v : CellVal) (t : Row) :
    ((k, v) :: t).lookup c = if c = k then some v else t.lookup c := by
  by_cases h : c = k
  · subst h; simp [List.lookup]
  · rw [List.lookup]
    have hb : (c == k) = false := by simpa using h
    rw [hb, if_neg h]

theorem lookup_append (c : String) :
    ∀ r s : Row, (r ++ s).lookup c =
      match r.lookup c with
      | some v => some v
      | none => s.lookup c := by
  intro r s
  induction r with
  | nil => simp
  | cons p t ih =>
    rcases p with ⟨k, v⟩
    rw [List.cons_append, lookup_cons, lookup_cons]
    by_cases h : c = k
    · rw [if_pos h, if_pos h]
    · rw [if_neg h, if_neg h, ih]

theorem lookup_none_iff {r : Row} {c : String} :
    r.lookup c = none ↔ ∀ p ∈ r, ¬p.1 = c := by
  induction r with
  | nil => simp
  | cons p t ih =>
    rcases p with ⟨k, v⟩
    rw [lookup_cons]
    by_cases h : c = k
    · subst h
      simp
    · rw [if_neg h, ih]
      constructor
      · intro ha q hq
        rcases List.mem_cons.mp hq with rfl | hq'
        · simpa using fun hh => h hh.symm
        · exact ha q hq'
      · intro ha q hq
        exact ha q (List.mem_cons_of_mem _ hq)

theorem lookup_naPairs {c : String} :
    ∀ {cols : List String}, c ∈ cols →
      (naPairs cols).lookup c = some CellVal.na := by
  intro cols h
  induction cols with
  | nil => simp at h
  | cons c' cs ih =>
    show (((c', CellVal.na) :: naPairs cs : Row)).lookup c = some CellVal.na
    rw [lookup_cons]
    by_cases he : c = c'
    · rw [if_pos he]
    · rw [if_neg he]
      refine ih ?_
      rcases List.mem_cons.mp h with h1 | h1
      · exact absurd h1 he
      · exact h1

theorem lookup_eq_some_mem {r : Row} {c : String} {v : CellVal}
    (h : r.lookup c = some v) : (c, v) ∈ r := by
  induction r with
  | nil => simp at h
  | cons p t ih =>
    rcases p with ⟨k, w⟩
    rw [lookup_cons] at h
    by_cases he : c = k
    · rw [if_pos he] at h
      cases h
      subst he
      exact List.mem_cons_self _ _
    · rw [if_neg he] at h
      exact List.mem_cons_of_mem _ (ih h)

theorem lookup_filterKey_ne {c c0 : String} (hne : ¬c = c0) :
    ∀ r : Row, (r.filter (fun p => decide (¬p.1 = c0))).lookup c = r.lookup c := by
  intro r
  induction r with
  | nil => rfl
  | cons p t ih =>
    rcases p with ⟨k, v⟩
    rw [List.filter_cons]
    by_cases hk : k = c0
    · have h1 : (decide (¬(k, v).1 = c0)) = false := by simp [hk]
      rw [h1]
      simp only [Bool.false_eq_true, if_false]
      rw [ih, lookup_cons, if_neg (fun hck => hne (hck.trans hk))]
    · have h1 : (decide (¬(k, v).1 = c0)) = true := by simpa using hk
      rw [h1]
      simp only [if_true]
      rw [lookup_cons, lookup_cons]
      by_cases hck : c = k
      · rw [if_pos hck, if_pos hck]
      · rw [if_neg hck, if_neg hck, ih]

theorem lookup_filterKey_self (c0 : String) :
    ∀ r : Row, (r.filter (fun p => decide (¬p.1 = c0))).lookup c0 = none := by
  intro r
  induction r with
  | nil => rfl
  | cons p t ih =>
    rcases p with ⟨k, v⟩
    rw [List.filter_cons]
    by_cases hk : k = c0
    · have h1 : (decide (¬(k, v).1 = c0)) = false := by simp [hk]
      rw [h1]
      simp only [Bool.false_eq_true, if_false]
      exact ih
    · have h1 : (decide (¬(k, v).1 = c0)) = true := by simpa using hk
      rw [h1]
      simp only [if_true]
      rw [lookup_cons, if_neg (fun h => hk h.symm), ih]

theorem lookup_map_update {c c0 : String} (hne : ¬c = c0) (v : CellVal) :
    ∀ r : Row,
      (r.map (fun p => if p.1 == c0 then (p.1, v) else p)).lookup c
        = r.lookup c := by
  intro r
  induction r with
  | nil => rfl
  | cons p t ih =>
    rcases p with ⟨k, w⟩
    rw [List.map_cons]
    by_cases hk : (k, w).1 == c0
    · rw [if_pos hk]
      have hkc : k = c0 := by simpa using hk
      have hck : ¬c = k := fun h => hne (h.trans hkc)
      rw [lookup_cons, if_neg hck, lookup_cons, if_neg hck, ih]
    · rw [if_neg hk]
      rw [lookup_cons, lookup_cons]
      by_cases hck : c = k
      · rw [if_pos hck, if_pos hck]
      · rw [if_neg hck, if_neg hck, ih]

theorem lookup_updateRow_ne {c c0 : String} (hne : ¬c = c0) (v : CellVal)
    (r : Row) : (updateRow r c0 v).lookup c = r.lookup c := by
  unfold updateRow
  by_cases ha : r.any (fun p => p.1 == c0)
  · rw [if_pos ha]
    exact lookup_map_update hne v r
  · rw [if_neg ha, lookup_append]
    rcases hl : r.lookup c with _ | w
    · rw [lookup_cons, if_neg hne]
      rfl
    · rfl

theorem lookup_updateRow_self {r : Row} {c : String} (v : CellVal)
    (h : r.lookup c = none) : (updateRow r c v).lookup c = some v := by
  unfold updateRow
  have ha : r.any (fun p => p.1 == c) = false := by
    rw [List.any_eq_false]
    intro p hp hb
    exact (lookup_none_iff.mp h) p hp (by simpa using hb)
  rw [if_neg (by simp [ha]), lookup_append, h, lookup_cons, if_pos rfl]

/-! ### Row-count preservation lemmas -/

theorem mapRowsE_ok_length {f : Row → Except String Row} :
    ∀ {l l' : List Row}, mapRowsE f l = Except.ok l' → l'.length = l.length := by
  intro l
  induction l with
  | nil =>
    intro l' h
    cases h
    rfl
  | cons r rs ih =>
    intro l' h
    rw [mapRowsE] at h
    rcases hf : f r with e | r'
    · rw [hf] at h; cases h
    · rw [hf] at h
      rcases hm : mapRowsE f rs with e | rs'
      · rw [hm] at h; cases h
      · rw [hm] at h
        cases h
        simpa using ih hm

theorem setColDatesE_ok_length {t : Table} {c : String} {t' : Table}
    (h : setColDatesE t c = Except.ok t') : t'.rows.length = t.rows.length := by
  unfold setColDatesE at h
  rcases hm : mapRowsE (fun r =>
      match normCell (getCell r c) with
      | Except.error e => Except.error e
      | Except.ok v => Except.ok (updateRow r c v)) t.rows with e | rows
  · rw [hm] at h; cases h
  · rw [hm] at h
    cases h
    exact mapRowsE_ok_length hm

theorem setColDatesE_ok_cols {t : Table} {c : String} {t' : Table}
    (h : setColDatesE t c = Except.ok t') :
    t'.cols = if c ∈ t.cols then t.cols else t.cols ++ [c] := by
  unfold setColDatesE at h
  rcases hm : mapRowsE (fun r =>
      match normCell (getCell r c) with
      | Except.error e => Except.error e
      | Except.ok v => Except.ok (updateRow r c v)) t.rows with e | rows
  · rw [hm] at h; cases h
  · rw [hm] at h
    cases h
    rfl

theorem setColL_length (t : Table) (c : String) (vs : List CellVal) :
    (setColL t c vs).rows.length = t.rows.length := by
  simp [setColL]

theorem setColF_length (t : Table) (c : String) (f : Row → CellVal) :
    (setColF t c f).rows.length = t.rows.length := by
  simp [setColF]

theorem dropCol_length (t : Table) (c : String) :
    (dropCol t c).rows.length = t.rows.length := by
  simp [dropCol]

theorem dateResolveE_ok_length {t : Table} {c : String} {t' : Table}
    (h : dateResolveE t c = Except.ok t') : t'.rows.length = t.rows.length := by
  unfold dateResolveE at h
  by_cases h1 : c ∈ t.cols
  · rw [if_pos h1] at h
    exact setColDatesE_ok_length h
  · rw [if_neg h1] at h
    by_cases h2 : (match t.idx.name with
        | some n => !(n == "") && containsSub (lowerStr n) "date"
        | none => false) = true
    · rw [if_pos h2] at h
      by_cases h3 : t.idx.isDate = true
      · rw [if_pos h3] at h
        cases h
        exact setColL_length _ _ _
      · rw [if_neg h3] at h
        cases h
    · rw [if_neg h2] at h
      by_cases h3 : t.idx.isDate = true
      · rw [if_pos h3] at h
        cases h
        exact setColL_length _ _ _
      · rw [if_neg h3] at h
        cases h

theorem flatMap_length_ge {α β : Type} (f : α → List β) :
    ∀ l : List α, (∀ x ∈ l, 1 ≤ (f x).length) → l.length ≤ (l.flatMap f).length := by
  intro l h
  induction l with
  | nil => simp
  | cons a t ih =>
    rw [List.flatMap_cons, List.length_append, List.length_cons]
    have h1 := h a (List.mem_cons_self _ _)
    have h2 := ih (fun x hx => h x (List.mem_cons_of_mem _ hx))
    omega

theorem flatMap_length_eq {α β : Type} (f : α → List β) :
    ∀ l : List α, (∀ x ∈ l, (f x).length = 1) → (l.flatMap f).length = l.length := by
  intro l h
  induction l with
  | nil => simp
  | cons a t ih =>
    rw [List.flatMap_cons, List.length_append, List.length_cons,
      h a (List.mem_cons_self _ _), ih (fun x hx => h x (List.mem_cons_of_mem _ hx))]
    omega

theorem leftMerge_branch_len_ge (l : Table) (lOn : String) (r : Table)
    (rOn sfx : String) (lr : Row) :
    1 ≤ (match matchRows r rOn (getCell lr lOn) with
      | [] => [lr ++ naPairs (suffixCols l.cols sfx r.cols)]
      | ms => ms.map (fun rr =>
          lr ++ joinedRow (suffixCols l.cols sfx r.cols) r.cols rr)).length := by
  rcases hm : matchRows r rOn (getCell lr lOn) with _ | ⟨m, ms⟩
  · simp
  · simp

theorem leftMerge_length_ge (l : Table) (lOn : String) (r : Table)
    (rOn sfx : String) :
    l.rows.length ≤ (leftMerge l lOn r rOn sfx).rows.length := by
  unfold leftMerge
  exact flatMap_length_ge _ _ (fun lr _ => leftMerge_branch_len_ge l lOn r rOn sfx lr)

theorem leftMerge_length_eq (l : Table) (lOn : String) (r : Table)
    (rOn sfx : String)
    (h : ∀ v, (r.rows.filter (fun rr => getCell rr rOn == v)).length ≤ 1) :
    (leftMerge l lOn r rOn sfx).rows.length = l.rows.length := by
  unfold leftMerge
  apply flatMap_length_eq
  intro lr _
  rcases hm : matchRows r rOn (getCell lr lOn) with _ | ⟨m, ms⟩
  · simp
  · have hl := h (getCell lr lOn)
    unfold matchRows at hm
    rw [hm] at hl
    rcases ms with _ | ⟨m2, ms2⟩
    · simp
    · simp at hl

theorem ratioStep_length (t : Table) (n rc vc : String) :
    (ratioStep t n rc vc).rows.length = t.rows.length := by
  unfold ratioStep
  by_cases h : (decide (n ∈ t.cols)
      && t.rows.any (fun r => !(getCell r vc == CellVal.na))) = true
  · rw [if_pos h, setColF_length]
  · rw [if_neg h]

theorem deriveRatios_length (t : Table) :
    (deriveRatios t).rows.length = t.rows.length := by
  unfold deriveRatios
  rcases hv : (t.cols.filter (fun c =>
      lowerStr c == "volume" || lowerStr c == "vol")).head? with _ | vc
  · rfl
  · rw [ratioStep_length, ratioStep_length]

theorem dropCol_filter_date_len (s : Table) (v : CellVal) :
    ((dropCol s "name").rows.filter (fun r => getCell r "date" == v)).length
      = (s.rows.filter (fun r => getCell r "date" == v)).length := by
  unfold dropCol
  simp only
  rw [List.filter_map, List.length_map]
  congr 1
  apply List.filter_congr
  intro r _
  simp only [Function.comp]
  unfold getCell
  rw [lookup_filterKey_ne (by decide : ¬"date" = "name")]

theorem mergeAuxE_ok_elim {df : Table} {dateCol : String} {aux : Table}
    {code : String} {fcc : List String → Option String} {sfx : String}
    {out : Table}
    (h : mergeAuxE df dateCol aux code fcc sfx = Except.ok out) :
    ∃ sub, normSubE aux code fcc = Except.ok sub
      ∧ "date" ∈ (dropCol sub "name").cols
      ∧ out = dropCol (leftMerge df dateCol (dropCol sub "name") "date" sfx)
          "date" := by
  unfold mergeAuxE at h
  rcases hn : normSubE aux code fcc with e | sub
  · rw [hn] at h; cases h
  · rw [hn] at h
    dsimp only at h
    by_cases hd : "date" ∈ (dropCol sub "name").cols
    · rw [if_pos hd] at h
      cases h
      exact ⟨sub, rfl, hd, rfl⟩
    · rw [if_neg hd] at h; cases h

theorem mergeAuxE_ok_length_ge {df : Table} {dateCol : String} {aux : Table}
    {code : String} {fcc : List String → Option String} {sfx : String}
    {out : Table}
    (h : mergeAuxE df dateCol aux code fcc sfx = Except.ok out) :
    df.rows.length ≤ out.rows.length := by
  rcases mergeAuxE_ok_elim h with ⟨sub, _, _, rfl⟩
  rw [dropCol_length]
  exact leftMerge_length_ge _ _ _ _ _

theorem mergeAuxE_ok_length_eq {df : Table} {dateCol : String} {aux : Table}
    {code : String} {fcc : List String → Option String} {sfx : String}
    {out : Table}
    (h : mergeAuxE df dateCol aux code fcc sfx = Except.ok out)
    (hu : ∀ s, normSubE aux code fcc = Except.ok s →
      ∀ v, (s.rows.filter (fun r => getCell r "date" == v)).length ≤ 1) :
    out.rows.length = df.rows.length := by
  rcases mergeAuxE_ok_elim h with ⟨sub, hn, _, rfl⟩
  rw [dropCol_length]
  apply leftMerge_length_eq
  intro v
  rw [dropCol_filter_date_len]
  exact hu sub hn v

theorem optAuxStage_ok_length_ge {df : Table} {dateCol : String}
    {aux : Option Table} {code : String} {fcc : List String → Option String}
    {sfx : String} {out : Table}
    (h : optAuxStage df dateCol aux code fcc sfx = Except.ok out) :
    df.rows.length ≤ out.rows.length := by
  unfold optAuxStage at h
  rcases aux with _ | a <;> dsimp only at h
  · cases h; exact le_refl _
  · by_cases he : tableEmpty a = true
    · rw [if_pos he] at h; cases h; exact le_refl _
    · rw [if_neg he] at h; exact mergeAuxE_ok_length_ge h

theorem optAuxStage_ok_length_eq {df : Table} {dateCol : String}
    {aux : Option Table} {code : String} {fcc : List String → Option String}
    {sfx : String} {out : Table}
    (h : optAuxStage df dateCol aux code fcc sfx = Except.ok out)
    (hu : ∀ a, aux = some a → tableEmpty a = false →
      ∀ s, normSubE a code fcc = Except.ok s →
        ∀ v, (s.rows.filter (fun r => getCell r "date" == v)).length ≤ 1) :
    out.rows.length = df.rows.length := by
  unfold optAuxStage at h
  rcases aux with _ | a <;> dsimp only at h
  · cases h; rfl
  · by_cases he : tableEmpty a = true
    · rw [if_pos he] at h; cases h; rfl
    · rw [if_neg he] at h
      exact mergeAuxE_ok_length_eq h
        (hu a rfl (by simpa using he))

theorem merge_ok_elim {price : Table} {inst dayt : Option Table}
    {symbol dateCol : String} {out : Table}
    (h : merge_price_institution_daytrade price inst dayt symbol dateCol
      = Except.ok out) :
    ∃ df1 df2 df3, dateResolveE price dateCol = Except.ok df1
      ∧ optAuxStage df1 dateCol inst (strip_symbol_suffix symbol)
          findCodeColInst "_inst" = Except.ok df2
      ∧ optAuxStage df2 dateCol dayt (strip_symbol_suffix symbol)
          findCodeColDt "_dt" = Except.ok df3
      ∧ out = deriveRatios df3 := by
  unfold merge_price_institution_daytrade at h
  rcases h1 : dateResolveE price dateCol with e | df1
  · rw [h1] at h; cases h
  · rw [h1] at h
    dsimp only at h
    rcases h2 : optAuxStage df1 dateCol inst (strip_symbol_suffix symbol)
        findCodeColInst "_inst" with e | df2
    · rw [h2] at h; cases h
    · rw [h2] at h
      dsimp only at h
      rcases h3 : optAuxStage df2 dateCol dayt (strip_symbol_suffix symbol)
          findCodeColDt "_dt" with e | df3
      · rw [h3] at h; cases h
      · rw [h3] at h
        dsimp only at h
        cases h
        exact ⟨df1, df2, df3, rfl, h2, h3, rfl⟩

/-! ### Row-preservation lemmas for the null-filling property -/

theorem ratioStep_row_mem (t : Table) (n rc vc : String) {w : Row}
    (hw : w ∈ t.rows) :
    ∃ w' ∈ (ratioStep t n rc vc).rows,
      ∀ c, ¬c = rc → w'.lookup c = w.lookup c := by
  unfold ratioStep
  by_cases h : (decide (n ∈ t.cols)
      && t.rows.any (fun r => !(getCell r vc == CellVal.na))) = true
  · rw [if_pos h]
    unfold setColF
    refine ⟨updateRow w rc (divCell (getCell w n) (getCell w vc)),
      List.mem_map_of_mem _ hw, ?_⟩
    intro c hc
    exact lookup_updateRow_ne hc _ _
  · rw [if_neg h]
    exact ⟨w, hw, fun _ _ => rfl⟩

theorem deriveRatios_row_mem (t : Table) {w : Row} (hw : w ∈ t.rows) :
    ∃ w' ∈ (deriveRatios t).rows,
      ∀ c, ¬c ∈ ratioNames → w'.lookup c = w.lookup c := by
  unfold deriveRatios
  rcases hv : (t.cols.filter (fun c =>
      lowerStr c == "volume" || lowerStr c == "vol")).head? with _ | vc
  · exact ⟨w, hw, fun _ _ => rfl⟩
  · obtain ⟨w1, hw1, hp1⟩ :=
      ratioStep_row_mem t "foreign_net" "foreign_net_ratio" vc hw
    obtain ⟨w2, hw2, hp2⟩ :=
      ratioStep_row_mem (ratioStep t "foreign_net" "foreign_net_ratio" vc)
        "daytrade_volume" "daytrade_volume_ratio" vc hw1
    refine ⟨w2, hw2, ?_⟩
    intro c hc
    have hc1 : ¬c = "foreign_net_ratio" := by
      intro he; exact hc (by rw [he]; simp [ratioNames])
    have hc2 : ¬c = "daytrade_volume_ratio" := by
      intro he; exact hc (by rw [he]; simp [ratioNames])
    rw [hp2 c hc2, hp1 c hc1]

theorem leftMerge_nomatch_mem {l : Table} {lOn : String} {r : Table}
    {rOn sfx : String} {lr : Row}
    (hlr : lr ∈ l.rows) (hm : matchRows r rOn (getCell lr lOn) = []) :
    (lr ++ naPairs (suffixCols l.cols sfx r.cols))
      ∈ (leftMerge l lOn r rOn sfx).rows := by
  unfold leftMerge
  simp only
  rw [List.mem_flatMap]
  refine ⟨lr, hlr, ?_⟩
  rw [hm]
  exact List.mem_singleton.mpr rfl

/-- C1: a successful merge never loses a price row; when every provided
auxiliary subset carries at most one row per date the row count is
exactly preserved; and a price row whose date matches nothing in the
auxiliary subset survives with the price fields intact and the
aux-contributed fields null. -/
theorem c1_merge_row_invariants
    (price : Table) (inst dayt : Option Table) (symbol dateCol : String)
    (out : Table)
    (hok : merge_price_institution_daytrade price inst dayt symbol dateCol
      = Except.ok out) :
    price.rows.length ≤ out.rows.length
    ∧ ((∀ a, inst = some a → tableEmpty a = false → ∀ s,
          normSubE a (strip_symbol_suffix symbol) findCodeColInst
            = Except.ok s →
          ∀ v, (s.rows.filter (fun r => getCell r "date" == v)).length ≤ 1) →
        (∀ a, dayt = some a → tableEmpty a = false → ∀ s,
          normSubE a (strip_symbol_suffix symbol) findCodeColDt
            = Except.ok s →
          ∀ v, (s.rows.filter (fun r => getCell r "date" == v)).length ≤ 1) →
        out.rows.length = price.rows.length)
    ∧ (∀ a df1 isub, dayt = none → inst = some a → tableEmpty a = false →
        dateResolveE price dateCol = Except.ok df1 →
        normSubE a (strip_symbol_suffix symbol) findCodeColInst
          = Except.ok isub →
        (∀ r ∈ df1.rows, ∀ p ∈ r, p.1 ∈ df1.cols) →
        ¬"date" ∈ df1.cols →
        ∀ pr ∈ df1.rows,
          matchRows (dropCol isub "name") "date" (getCell pr dateCol) = [] →
          ∃ orow ∈ out.rows,
            (∀ c v, pr.lookup c = some v → ¬c ∈ ratioNames →
              getCell orow c = v)
            ∧ (∀ c ∈ suffixCols df1.cols "_inst" (dropCol isub "name").cols,
                ¬c ∈ df1.cols → ¬c ∈ ratioNames →
                getCell orow c = CellVal.na)) := by
  obtain ⟨df1, df2, df3, h1, h2, h3, rfl⟩ := merge_ok_elim hok
  refine ⟨?_, ?_, ?_⟩
  · -- row count can only grow
    rw [deriveRatios_length]
    calc price.rows.length = df1.rows.length := (dateResolveE_ok_length h1).symm
      _ ≤ df2.rows.length := optAuxStage_ok_length_ge h2
      _ ≤ df3.rows.length := optAuxStage_ok_length_ge h3
  · -- equality under at-most-one-row-per-date subsets
    intro hui hud
    rw [deriveRatios_length]
    calc df3.rows.length = df2.rows.length := optAuxStage_ok_length_eq h3 hud
      _ = df1.rows.length := optAuxStage_ok_length_eq h2 hui
      _ = price.rows.length := dateResolveE_ok_length h1
  · -- null-filling for a price date absent from the institutional subset
    intro a df1 isub hdn hia hne hres hsub hwf hnd pr hpr hnomatch
    rw [h1] at hres
    cases hres
    subst hdn hia
    -- the day-trade stage is the identity
    unfold optAuxStage at h3
    dsimp only at h3
    cases h3
    -- the institutional stage is one auxiliary merge
    unfold optAuxStage at h2
    dsimp only at h2
    rw [if_neg (by simp [hne])] at h2
    obtain ⟨sub, hnsub, hdate, rfl⟩ := mergeAuxE_ok_elim h2
    rw [hnsub] at hsub
    cases hsub
    -- the unmatched price row survives the left join null-filled
    have hm0 : (pr ++ naPairs (suffixCols df1.cols "_inst"
        (dropCol isub "name").cols))
        ∈ (leftMerge df1 dateCol (dropCol isub "name") "date" "_inst").rows :=
      leftMerge_nomatch_mem hpr hnomatch
    have hd0 : ((pr ++ naPairs (suffixCols df1.cols "_inst"
        (dropCol isub "name").cols)).filter (fun p => decide (¬p.1 = "date")))
        ∈ (dropCol (leftMerge df1 dateCol (dropCol isub "name") "date"
            "_inst") "date").rows := by
      unfold dropCol
      exact List.mem_map_of_mem _ hm0
    obtain ⟨orow, horow, hpres⟩ := deriveRatios_row_mem _ hd0
    refine ⟨orow, horow, ?_, ?_⟩
    · -- price fields are intact
      intro c v hcv hcr
      have hc_cols : c ∈ df1.cols := hwf pr hpr _ (lookup_eq_some_mem hcv)
      have hcd : ¬c = "date" := fun he => hnd (he ▸ hc_cols)
      unfold getCell
      rw [hpres c hcr, lookup_filterKey_ne hcd, lookup_append, hcv]
      rfl
    · -- aux-contributed fields are null
      intro c hcm hcc hcr
      unfold getCell
      rw [hpres c hcr]
      by_cases hcd : c = "date"
      · subst hcd
        rw [lookup_filterKey_self]
        rfl
      · rw [lookup_filterKey_ne hcd, lookup_append]
        rcases hlp : pr.lookup c with _ | v
        · rw [lookup_naPairs hcm]
          rfl
        · exact absurd (hwf pr hpr _ (lookup_eq_some_mem hlp)) hcc

/-- C4: an auxiliary table with zero rows is treated identically to an
absent one, independently for the institutional and the day-trade
argument. -/
theorem c4_empty_aux_equiv (price : Table) (other : Option Table) (aux : Table)
    (symbol dateCol : String) (h : tableEmpty aux = true) :
    merge_price_institution_daytrade price (some aux) other symbol dateCol
      = merge_price_institution_daytrade price none other symbol dateCol
    ∧ merge_price_institution_daytrade price other (some aux) symbol dateCol
      = merge_price_institution_daytrade price other none symbol dateCol := by
  constructor <;>
  · unfold merge_price_institution_daytrade optAuxStage
    simp [h]

/-! ### Ratio semantics (C2) -/

theorem divCell_na_left (x : CellVal) : divCell CellVal.na x = CellVal.na := by
  cases x <;> rfl

theorem divCell_na_right (x : CellVal) : divCell x CellVal.na = CellVal.na := by
  cases x <;> rfl

/-- C2 (amended): when a volume column is found, a `foreign_net` column
is present and some volume is non-null, the derived
`foreign_net_ratio` of every row is exactly `foreign_net / volume` under
float-division semantics: null operands give null, a positive value over
zero volume gives `inf` (negative gives `-inf`), zero over zero gives
null, and a nonzero volume gives the exact quotient — never an error. -/
theorem c2_ratio_semantics (t : Table) (vc : String)
    (hvc : (t.cols.filter (fun c =>
        lowerStr c == "volume" || lowerStr c == "vol")).head? = some vc)
    (hfn : "foreign_net" ∈ t.cols)
    (hnn : t.rows.any (fun r => !(getCell r vc == CellVal.na)) = true)
    (hfresh : ∀ r ∈ t.rows, r.lookup "foreign_net_ratio" = none) :
    (∃ g : Row → Row, (deriveRatios t).rows = t.rows.map g
      ∧ ∀ r ∈ t.rows, getCell (g r) "foreign_net_ratio"
          = divCell (getCell r "foreign_net") (getCell r vc))
    ∧ (deriveRatios t).rows.length = t.rows.length
    ∧ (∀ x, divCell CellVal.na x = CellVal.na)
    ∧ (∀ x, divCell x CellVal.na = CellVal.na)
    ∧ (∀ a : ℚ, 0 < a → divCell (CellVal.num a) (CellVal.num 0) = CellVal.inf)
    ∧ (∀ a : ℚ, a < 0 → divCell (CellVal.num a) (CellVal.num 0) = CellVal.neginf)
    ∧ divCell (CellVal.num 0) (CellVal.num 0) = CellVal.na
    ∧ (∀ a b : ℚ, ¬b = 0 → divCell (CellVal.num a) (CellVal.num b)
        = CellVal.num (a / b)) := by
  refine ⟨?_, deriveRatios_length t, divCell_na_left, divCell_na_right,
    ?_, ?_, ?_, ?_⟩
  · -- the ratio column values
    unfold deriveRatios
    rw [hvc]
    dsimp only
    have hcond : (decide ("foreign_net" ∈ t.cols)
        && t.rows.any (fun r => !(getCell r vc == CellVal.na))) = true := by
      simp [hfn, hnn]
    unfold ratioStep
    rw [if_pos hcond]
    by_cases h2 : (decide ("daytrade_volume" ∈ (setColF t "foreign_net_ratio"
        (fun r => divCell (getCell r "foreign_net") (getCell r vc))).cols)
        && (setColF t "foreign_net_ratio"
          (fun r => divCell (getCell r "foreign_net") (getCell r vc))).rows.any
            (fun r => !(getCell r vc == CellVal.na))) = true
    · rw [if_pos h2]
      refine ⟨fun r => updateRow (updateRow r "foreign_net_ratio"
        (divCell (getCell r "foreign_net") (getCell r vc)))
        "daytrade_volume_ratio"
        (divCell (getCell (updateRow r "foreign_net_ratio"
          (divCell (getCell r "foreign_net") (getCell r vc)))
            "daytrade_volume")
          (getCell (updateRow r "foreign_net_ratio"
            (divCell (getCell r "foreign_net") (getCell r vc))) vc)), ?_, ?_⟩
      · unfold setColF
        simp only
        rw [List.map_map]
        rfl
      · intro r hr
        unfold getCell
        rw [lookup_updateRow_ne (by decide) _,
          lookup_updateRow_self _ (hfresh r hr)]
        rfl
    · rw [if_neg h2]
      refine ⟨fun r => updateRow r "foreign_net_ratio"
        (divCell (getCell r "foreign_net") (getCell r vc)), rfl, ?_⟩
      intro r hr
      unfold getCell
      rw [lookup_updateRow_self _ (hfresh r hr)]
      rfl
  · intro a ha
    show (if (0 : ℚ) = 0 then (if a > 0 then CellVal.inf
        else if a < 0 then CellVal.neginf else CellVal.na)
      else CellVal.num (a / 0)) = CellVal.inf
    rw [if_pos rfl, if_pos ha]
  · intro a ha
    show (if (0 : ℚ) = 0 then (if a > 0 then CellVal.inf
        else if a < 0 then CellVal.neginf else CellVal.na)
      else CellVal.num (a / 0)) = CellVal.neginf
    rw [if_pos rfl, if_neg (by exact not_lt.mpr (le_of_lt ha)), if_pos ha]
  · show (if (0 : ℚ) = 0 then (if (0 : ℚ) > 0 then CellVal.inf
        else if (0 : ℚ) < 0 then CellVal.neginf else CellVal.na)
      else CellVal.num ((0 : ℚ) / 0)) = CellVal.na
    rw [if_pos rfl, if_neg (lt_irrefl (0 : ℚ)), if_neg (lt_irrefl (0 : ℚ))]
  · intro a b hb
    show (if b = 0 then (if a > 0 then CellVal.inf
        else if a < 0 then CellVal.neginf else CellVal.na)
      else CellVal.num (a / b)) = CellVal.num (a / b)
    rw [if_neg hb]

/-! ### Error characterization (C7) -/

theorem exceptErr_true_iff {α : Type} (x : Except String α) :
    exceptErr x = true ↔ ∃ e, x = Except.error e := by
  cases x <;> simp [exceptErr]

theorem exceptErr_false_iff {α : Type} (x : Except String α) :
    exceptErr x = false ↔ ∃ t, x = Except.ok t := by
  cases x <;> simp [exceptErr]

theorem mapRowsE_ok_of_forall {f : Row → Except String Row} :
    ∀ {l : List Row}, (∀ r ∈ l, ∃ r', f r = Except.ok r') →
      ∃ l', mapRowsE f l = Except.ok l' := by
  intro l
  induction l with
  | nil => exact fun _ => ⟨[], rfl⟩
  | cons r rs ih =>
    intro h
    obtain ⟨r', hr⟩ := h r (List.mem_cons_self _ _)
    obtain ⟨rs', hrs⟩ := ih (fun x hx => h x (List.mem_cons_of_mem _ hx))
    exact ⟨r' :: rs', by rw [mapRowsE, hr, hrs]⟩

theorem setColDatesE_ok_of_parse {t : Table} {c : String}
    (h : ∀ r ∈ t.rows, ∃ v, normCell (getCell r c) = Except.ok v) :
    ∃ t', setColDatesE t c = Except.ok t' := by
  obtain ⟨rows, hrows⟩ := mapRowsE_ok_of_forall (l := t.rows)
    (f := fun r => match normCell (getCell r c) with
      | Except.error e => Except.error e
      | Except.ok v => Except.ok (updateRow r c v))
    (by
      intro r hr
      obtain ⟨v, hv⟩ := h r hr
      exact ⟨updateRow r c v, by dsimp only; rw [hv]⟩)
  exact ⟨_, by unfold setColDatesE; rw [hrows]⟩

theorem auxFilter_cols (aux : Table) (code : String)
    (fcc : List String → Option String) :
    (auxFilter aux code fcc).cols = aux.cols := by
  unfold auxFilter
  rcases fcc aux.cols with _ | cc <;> rfl

theorem auxFilter_rows_subset {aux : Table} {code : String}
    {fcc : List String → Option String} {r : Row}
    (h : r ∈ (auxFilter aux code fcc).rows) : r ∈ aux.rows := by
  unfold auxFilter at h
  rcases hf : fcc aux.cols with _ | cc <;> rw [hf] at h <;> dsimp only at h
  · simp at h
  · exact List.mem_of_mem_filter h

theorem normSubE_ok_of {aux : Table} {code : String}
    {fcc : List String → Option String}
    (hd : "date" ∈ aux.cols)
    (hp : ∀ r ∈ (auxFilter aux code fcc).rows,
      ∃ v, normCell (getCell r "date") = Except.ok v) :
    ∃ s, normSubE aux code fcc = Except.ok s ∧ s.cols = aux.cols := by
  unfold normSubE
  have hc : "date" ∈ (auxFilter aux code fcc).cols := by
    rw [auxFilter_cols]; exact hd
  rw [if_pos hc]
  obtain ⟨t', ht'⟩ := setColDatesE_ok_of_parse
    (t := auxFilter aux code fcc) (c := "date") hp
  refine ⟨t', ht', ?_⟩
  rw [setColDatesE_ok_cols ht', if_pos hc, auxFilter_cols]

theorem mergeAuxE_ok_of {df : Table} {dateCol : String} {aux : Table}
    {code : String} {fcc : List String → Option String} {sfx : String}
    (hd : "date" ∈ aux.cols)
    (hp : ∀ r ∈ (auxFilter aux code fcc).rows,
      ∃ v, normCell (getCell r "date") = Except.ok v) :
    ∃ out, mergeAuxE df dateCol aux code fcc sfx = Except.ok out := by
  obtain ⟨s, hs, hscols⟩ := @normSubE_ok_of aux code fcc hd hp
  unfold mergeAuxE
  rw [hs]
  dsimp only
  have hd2 : "date" ∈ (dropCol s "name").cols := by
    unfold dropCol
    apply List.mem_filter.mpr
    exact ⟨hscols ▸ hd, by decide⟩
  rw [if_pos hd2]
  exact ⟨_, rfl⟩

theorem optAuxStage_ok_of {df : Table} {dateCol : String} {aux : Option Table}
    {code : String} {fcc : List String → Option String} {sfx : String}
    (h : ∀ a, aux = some a → tableEmpty a = false →
      "date" ∈ a.cols
      ∧ ∀ r ∈ a.rows, ∃ v, normCell (getCell r "date") = Except.ok v) :
    ∃ out, optAuxStage df dateCol aux code fcc sfx = Except.ok out := by
  unfold optAuxStage
  rcases aux with _ | a
  · exact ⟨df, rfl⟩
  · dsimp only
    by_cases he : tableEmpty a = true
    · rw [if_pos he]; exact ⟨df, rfl⟩
    · rw [if_neg he]
      obtain ⟨hd, hp⟩ := h a rfl (by simpa using he)
      exact mergeAuxE_ok_of hd (fun r hr => hp r (auxFilter_rows_subset hr))

theorem dateResolveE_err_iff (t : Table) (c : String)
    (hp : c ∈ t.cols → ∀ r ∈ t.rows, ∃ v, normCell (getCell r c) = Except.ok v) :
    exceptErr (dateResolveE t c) = true
      ↔ (¬c ∈ t.cols ∧ t.idx.isDate = false) := by
  unfold dateResolveE
  by_cases h1 : c ∈ t.cols
  · rw [if_pos h1]
    obtain ⟨t', ht'⟩ := setColDatesE_ok_of_parse (hp h1)
    rw [ht']
    simp [exceptErr, h1]
  · rw [if_neg h1]
    by_cases h2 : (match t.idx.name with
        | some n => !(n == "") && containsSub (lowerStr n) "date"
        | none => false) = true
    · rw [if_pos h2]
      by_cases h3 : t.idx.isDate = true
      · rw [if_pos h3]
        simp [exceptErr, h1, h3]
      · rw [if_neg h3]
        simp only [exceptErr, true_iff]
        exact ⟨h1, by simpa using h3⟩
    · rw [if_neg h2]
      by_cases h3 : t.idx.isDate = true
      · rw [if_pos h3]
        simp [exceptErr, h1, h3]
      · rw [if_neg h3]
        simp only [exceptErr, true_iff]
        exact ⟨h1, by simpa using h3⟩

/-- C7 (amended): provided the date cells that the merge reads are
datetime-convertible and every nonempty auxiliary table carries a `date`
column, the merge raises exactly when the price table has neither a
`date_col` column nor a datetime-typed index. -/
theorem c7_date_key_fatal_iff (price : Table) (inst dayt : Option Table)
    (symbol dateCol : String)
    (hdc : dateCol ∈ price.cols →
      ∀ r ∈ price.rows, ∃ v, normCell (getCell r dateCol) = Except.ok v)
    (hinst : ∀ a, inst = some a → tableEmpty a = false →
      "date" ∈ a.cols
      ∧ ∀ r ∈ a.rows, ∃ v, normCell (getCell r "date") = Except.ok v)
    (hdayt : ∀ a, dayt = some a → tableEmpty a = false →
      "date" ∈ a.cols
      ∧ ∀ r ∈ a.rows, ∃ v, normCell (getCell r "date") = Except.ok v) :
    exceptErr (merge_price_institution_daytrade price inst dayt symbol dateCol)
        = true
      ↔ (¬dateCol ∈ price.cols ∧ price.idx.isDate = false) := by
  constructor
  · intro herr
    by_contra hno
    have hres : exceptErr (dateResolveE price dateCol) = false := by
      rcases hb : exceptErr (dateResolveE price dateCol) with _ | _
      · rfl
      · exact absurd ((dateResolveE_err_iff price dateCol hdc).mp hb) hno
    obtain ⟨df1, hdf1⟩ := (exceptErr_false_iff _).mp hres
    obtain ⟨df2, hdf2⟩ := @optAuxStage_ok_of df1 dateCol inst
      (strip_symbol_suffix symbol) findCodeColInst "_inst" hinst
    obtain ⟨df3, hdf3⟩ := @optAuxStage_ok_of df2 dateCol dayt
      (strip_symbol_suffix symbol) findCodeColDt "_dt" hdayt
    have : merge_price_institution_daytrade price inst dayt symbol dateCol
        = Except.ok (deriveRatios df3) := by
      unfold merge_price_institution_daytrade
      rw [hdf1]
      dsimp only
      rw [hdf2]
      dsimp only
      rw [hdf3]
    rw [this] at herr
    simp [exceptErr] at herr
  · intro hcond
    have herr := (dateResolveE_err_iff price dateCol hdc).mpr hcond
    obtain ⟨e, he⟩ := (exceptErr_true_iff _).mp herr
    unfold merge_price_institution_daytrade
    rw [he]
    rfl

/-- C7 counterexample: a price table that does have a `Date` column — but
an unparsable cell in it — still makes the merge raise, refuting the
claim's "if and only if". -/
theorem c7_counterexample :
    exceptErr (merge_price_institution_daytrade
      ⟨["Date", "Close"], defaultIdx,
        [[("Date", CellVal.str "garbage"), ("Close", CellVal.num 1)]]⟩
      none none "2330" "Date") = true
    ∧ "Date" ∈ (Table.mk ["Date", "Close"] defaultIdx
        [[("Date", CellVal.str "garbage"), ("Close", CellVal.num 1)]]).cols := by
  constructor
  · rfl
  · decide

/-! ### Code-column resolution (C9) -/

theorem find?_first {α : Type} (p : α → Bool) :
    ∀ (l : List α) (a : α), l.find? p = some a →
      p a = true ∧ a ∈ l
      ∧ ∃ pre post, l = pre ++ a :: post ∧ ∀ x ∈ pre, p x = false := by
  intro l
  induction l with
  | nil => intro a h; simp at h
  | cons b t ih =>
    intro a h
    by_cases hb : p b = true
    · rw [List.find?_cons_of_pos _ hb] at h
      cases h
      exact ⟨hb, List.mem_cons_self _ _, [], t, rfl, by simp⟩
    · rw [List.find?_cons_of_neg _ (by simpa using hb)] at h
      obtain ⟨hp, hm, pre, post, hsplit, hpre⟩ := ih a h
      refine ⟨hp, List.mem_cons_of_mem _ hm, b :: pre, post,
        by rw [hsplit]; rfl, ?_⟩
      intro x hx
      rcases List.mem_cons.mp hx with rfl | hx'
      · simpa using hb
      · exact hpre x hx'

/-- C9 (amended): the code-column resolution picks the first header, in
table column order, that passes the acceptance test — an exact name and
a merely `代號`-containing name have equal standing; with no acceptable
header the filtered subset is empty and the auxiliary merge still
succeeds (provided the table has its `date` column). -/
theorem c9_code_column_resolution (aux : Table) (code dateCol : String)
    (df : Table) :
    (∀ c, findCodeColInst aux.cols = some c →
      instCodePred c = true ∧ c ∈ aux.cols
      ∧ ∃ pre post, aux.cols = pre ++ c :: post
          ∧ ∀ x ∈ pre, instCodePred x = false)
    ∧ (∀ c, findCodeColDt aux.cols = some c →
      dtCodePred c = true ∧ c ∈ aux.cols
      ∧ ∃ pre post, aux.cols = pre ++ c :: post
          ∧ ∀ x ∈ pre, dtCodePred x = false)
    ∧ (findCodeColInst aux.cols = none →
        (∀ c ∈ aux.cols, instCodePred c = false)
        ∧ (auxFilter aux code findCodeColInst).rows = []
        ∧ ("date" ∈ aux.cols →
          exceptErr (mergeAuxE df dateCol aux code findCodeColInst "_inst")
            = false)) := by
  refine ⟨fun c h => find?_first instCodePred aux.cols c h,
    fun c h => find?_first dtCodePred aux.cols c h, ?_⟩
  intro hnone
  have hrows : (auxFilter aux code findCodeColInst).rows = [] := by
    unfold auxFilter
    rw [hnone]
  refine ⟨?_, hrows, ?_⟩
  · intro c hc
    exact Bool.eq_false_iff.mpr (List.find?_eq_none.mp hnone c hc)
  · intro hd
    obtain ⟨out, hout⟩ := @mergeAuxE_ok_of df dateCol aux code
      findCodeColInst "_inst" hd
      (by rw [hrows]; intro r hr; simp at hr)
    exact (exceptErr_false_iff _).mpr ⟨out, hout⟩

/-- C9 counterexample: with headers `["股票代號", "code"]` the resolution
picks `股票代號` — a header that merely contains the code marker — over
the exact `code`, because only column order decides. -/
theorem c9_counterexample :
    findCodeColInst ["股票代號", "code"] = some "股票代號"
    ∧ ¬("股票代號" = "code") ∧ ¬("股票代號" = "證券代號")
    ∧ containsSub "股票代號" "代號" = true := by
  refine ⟨rfl, by decide, by decide, by decide⟩

/-! ## Store-level rendering of the merge (frame property, C10)

The Python function mutates data-frame objects in place (column
assignments) but only on objects it created with `.copy()` or obtained
fresh from `merge`.  To state that the three argument tables are never
modified, the same pipeline is rendered over an explicit store of
tables: `.copy()` and `merge` allocate, column assignments write through
a reference.  The pure kernels (`auxFilter`, `setColDatesE`,
`leftMerge`, `dropCol`, `deriveRatios`) are shared with the direct
definition. -/

structure Store where
  tabs : List Table
deriving DecidableEq, Repr

def readT (st : Store) (r : ℕ) : Table := st.tabs.getD r emptyTable

def writeT (st : Store) (r : ℕ) (t : Table) : Store := ⟨st.tabs.set r t⟩

def alloc (st : Store) (t : Table) : Store := ⟨st.tabs ++ [t]⟩

theorem readT_alloc_lt {st : Store} {t : Table} {r : ℕ}
    (h : r < st.tabs.length) : readT (alloc st t) r = readT st r := by
  unfold readT alloc
  simp only
  rw [List.getD_eq_getElem?_getD, List.getD_eq_getElem?_getD,
    List.getElem?_append_left h]

theorem alloc_length (st : Store) (t : Table) :
    (alloc st t).tabs.length = st.tabs.length + 1 := by
  simp [alloc]

theorem readT_writeT_ne {st : Store} {r r' : ℕ} {t : Table} (h : ¬r = r') :
    readT (writeT st r' t) r = readT st r := by
  unfold readT writeT
  simp only
  rw [List.getD_eq_getElem?_getD, List.getD_eq_getElem?_getD,
    List.getElem?_set_ne (fun he => h he.symm)]

theorem writeT_length (st : Store) (r : ℕ) (t : Table) :
    (writeT st r t).tabs.length = st.tabs.length := by
  simp [writeT]

/-- The store-level auxiliary block: `sub = filter(...).copy()` (an
allocation), `sub["date"] = ...` (a write), `df = df.merge(...).drop(...)`
(a fresh allocation rebinding `df`). -/
def auxStageSt (st : Store) (dfR : ℕ) (auxR : Option ℕ) (dateCol code : String)
    (fcc : List String → Option String) (sfx : String) :
    Except String (Store × ℕ) :=
  match auxR with
  | none => Except.ok (st, dfR)
  | some ar =>
    if tableEmpty (readT st ar) then Except.ok (st, dfR)
    else
      let st1 := alloc st (auxFilter (readT st ar) code fcc)
      let sR := st.tabs.length
      match (if "date" ∈ (readT st1 sR).cols
          then setColDatesE (readT st1 sR) "date"
          else Except.ok (readT st1 sR)) with
      | Except.error e => Except.error e
      | Except.ok subN =>
        let st2 := writeT st1 sR subN
        let sub2 := dropCol (readT st2 sR) "name"
        if "date" ∈ sub2.cols then
          Except.ok (alloc st2 (dropCol (leftMerge (readT st2 dfR) dateCol
            sub2 "date" sfx) "date"), st2.tabs.length)
        else Except.error "KeyError: date"

/-- The store-level merge: `df = price_df.copy()`, the date-key
resolution written into the copy, the two auxiliary blocks, and the
ratio assignments written into the final frame. -/
def mergeProg (st : Store) (pR : ℕ) (iR dR : Option ℕ)
    (symbol dateCol : String) : Except String (Store × ℕ) :=
  let st0 := alloc st (readT st pR)
  let dfR := st.tabs.length
  match dateResolveE (readT st0 dfR) dateCol with
  | Except.error e => Except.error e
  | Except.ok t1 =>
    let st1 := writeT st0 dfR t1
    match auxStageSt st1 dfR iR dateCol (strip_symbol_suffix symbol)
        findCodeColInst "_inst" with
    | Except.error e => Except.error e
    | Except.ok (st2, dfR2) =>
      match auxStageSt st2 dfR2 dR dateCol (strip_symbol_suffix symbol)
          findCodeColDt "_dt" with
      | Except.error e => Except.error e
      | Except.ok (st3, dfR3) =>
        Except.ok (writeT st3 dfR3 (deriveRatios (readT st3 dfR3)), dfR3)

theorem auxStageSt_frame {st : Store} {dfR : ℕ} {auxR : Option ℕ}
    {dateCol code : String} {fcc : List String → Option String} {sfx : String}
    {st' : Store} {dfR' : ℕ}
    (h : auxStageSt st dfR auxR dateCol code fcc sfx = Except.ok (st', dfR')) :
    (∀ r, r < st.tabs.length → readT st' r = readT st r)
    ∧ st.tabs.length ≤ st'.tabs.length
    ∧ (dfR' = dfR ∨ st.tabs.length ≤ dfR') := by
  unfold auxStageSt at h
  rcases auxR with _ | ar <;> dsimp only at h
  · cases h
    exact ⟨fun _ _ => rfl, le_refl _, Or.inl rfl⟩
  · by_cases he : tableEmpty (readT st ar) = true
    · rw [if_pos he] at h
      cases h
      exact ⟨fun _ _ => rfl, le_refl _, Or.inl rfl⟩
    · rw [if_neg he] at h
      rcases hn : (if "date" ∈ (readT (alloc st (auxFilter (readT st ar) code
          fcc)) st.tabs.length).cols
          then setColDatesE (readT (alloc st (auxFilter (readT st ar) code
            fcc)) st.tabs.length) "date"
          else Except.ok (readT (alloc st (auxFilter (readT st ar) code fcc))
            st.tabs.length)) with e | subN
      · rw [hn] at h; cases h
      · rw [hn] at h
        dsimp only at h
        by_cases hd : "date" ∈ (dropCol (readT (writeT (alloc st (auxFilter
            (readT st ar) code fcc)) st.tabs.length subN) st.tabs.length)
            "name").cols
        · rw [if_pos hd] at h
          cases h
          refine ⟨?_, ?_, ?_⟩
          · intro r hr
            rw [readT_alloc_lt (by
                rw [writeT_length, alloc_length]; omega),
              readT_writeT_ne (by omega), readT_alloc_lt hr]
          · rw [alloc_length, writeT_length, alloc_length]
            omega
          · right
            rw [writeT_length, alloc_length]
            omega
        · rw [if_neg hd] at h
          cases h

/-- C10: after a run of the merge pipeline, each of the three input
tables reads back unchanged from the store — the price table is copied
before the date key is written, each auxiliary subset is copied before
its date field is rewritten, and merges allocate fresh frames. -/
theorem c10_inputs_unmodified (st : Store) (pR : ℕ) (iR dR : Option ℕ)
    (symbol dateCol : String) (st' : Store) (res : ℕ)
    (hp : pR < st.tabs.length)
    (hi : ∀ x, iR = some x → x < st.tabs.length)
    (hd : ∀ x, dR = some x → x < st.tabs.length)
    (hok : mergeProg st pR iR dR symbol dateCol = Except.ok (st', res)) :
    readT st' pR = readT st pR
    ∧ (∀ x, iR = some x → readT st' x = readT st x)
    ∧ (∀ x, dR = some x → readT st' x = readT st x) := by
  have hall : ∀ r, r < st.tabs.length → readT st' r = readT st r := by
    intro r hr
    unfold mergeProg at hok
    dsimp only at hok
    rcases h1 : dateResolveE (readT (alloc st (readT st pR)) st.tabs.length)
        dateCol with e | t1
    · rw [h1] at hok; cases hok
    · rw [h1] at hok
      dsimp only at hok
      rcases h2 : auxStageSt (writeT (alloc st (readT st pR)) st.tabs.length
          t1) st.tabs.length iR dateCol (strip_symbol_suffix symbol)
          findCodeColInst "_inst" with e | p2
      · rw [h2] at hok; cases hok
      · rw [h2] at hok
        rcases p2 with ⟨st2, dfR2⟩
        dsimp only at hok
        rcases h3 : auxStageSt st2 dfR2 dR dateCol
            (strip_symbol_suffix symbol) findCodeColDt "_dt" with e | p3
        · rw [h3] at hok; cases hok
        · rw [h3] at hok
          rcases p3 with ⟨st3, dfR3⟩
          dsimp only at hok
          have hpair := Except.ok.inj hok
          have hst'eq : st' = writeT st3 dfR3 (deriveRatios (readT st3 dfR3)) :=
            (congrArg Prod.fst hpair).symm
          obtain ⟨hf2, hl2, hr2⟩ := auxStageSt_frame h2
          obtain ⟨hf3, hl3, hr3⟩ := auxStageSt_frame h3
          have hlen1 : (writeT (alloc st (readT st pR)) st.tabs.length
              t1).tabs.length = st.tabs.length + 1 := by
            rw [writeT_length, alloc_length]
          have hd3 : st.tabs.length ≤ dfR3 := by
            rcases hr3 with rfl | hge
            · rcases hr2 with rfl | hge2
              · omega
              · omega
            · omega
          rw [hst'eq, readT_writeT_ne (by omega)]
          rw [hf3 r (by omega), hf2 r (by omega),
            readT_writeT_ne (by omega), readT_alloc_lt hr]
  exact ⟨hall pR hp, fun x hx => hall x (hi x hx),
    fun x hx => hall x (hd x hx)⟩

/-! ## Concrete instances -/

/-- A one-row price table (its date matches nothing institutional). -/
def wPrice : Table := ⟨["Date", "Close"], defaultIdx,
  [[("Date", CellVal.str "2024-01-02"), ("Close", CellVal.num 10)]]⟩

/-- A one-row institutional table for code 2330 on a different date. -/
def wInst : Table := ⟨["code", "date", "foreign_net"], defaultIdx,
  [[("code", CellVal.str "2330"), ("date", CellVal.str "2024-01-03"),
    ("foreign_net", CellVal.num 5)]]⟩

/-- `wPrice` after date-key resolution. -/
def wDf1 : Table := ⟨["Date", "Close"], defaultIdx,
  [[("Date", CellVal.date 2024 1 2), ("Close", CellVal.num 10)]]⟩

/-- The normalized code-2330 subset of `wInst`. -/
def wSub : Table := ⟨["code", "date", "foreign_net"], defaultIdx,
  [[("code", CellVal.str "2330"), ("date", CellVal.date 2024 1 3),
    ("foreign_net", CellVal.num 5)]]⟩

/-- The merged output for `wPrice`/`wInst`: one null-filled row. -/
def wOut : Table := ⟨["Date", "Close", "code", "foreign_net"], defaultIdx,
  [[("Date", CellVal.date 2024 1 2), ("Close", CellVal.num 10),
    ("code", CellVal.na), ("foreign_net", CellVal.na)]]⟩

/-- An auxiliary table with columns but zero rows. -/
def wEmptyAux : Table := ⟨["code", "date"], defaultIdx, []⟩

/-- An auxiliary table without any code-bearing column. -/
def wAuxNoCode : Table := ⟨["date", "metric"], defaultIdx,
  [[("date", CellVal.str "2024-01-03"), ("metric", CellVal.num 7)]]⟩

/-- A two-row price table whose second row has volume zero. -/
def priceZeroVol : Table := ⟨["Date", "Close", "Volume"], defaultIdx,
  [[("Date", CellVal.str "2024-01-02"), ("Close", CellVal.num 10),
    ("Volume", CellVal.num 1000)],
   [("Date", CellVal.str "2024-01-03"), ("Close", CellVal.num 11),
    ("Volume", CellVal.num 0)]]⟩

/-- Institutional rows matching both dates of `priceZeroVol`. -/
def instZeroVol : Table := ⟨["code", "date", "foreign_net"], defaultIdx,
  [[("code", CellVal.str "2330"), ("date", CellVal.str "2024-01-02"),
    ("foreign_net", CellVal.num 200)],
   [("code", CellVal.str "2330"), ("date", CellVal.str "2024-01-03"),
    ("foreign_net", CellVal.num 200)]]⟩

/-- A merged-shape table with a volume and a `foreign_net` column. -/
def tRatioW : Table := ⟨["Volume", "foreign_net"], defaultIdx,
  [[("Volume", CellVal.num 1000), ("foreign_net", CellVal.num 200)]]⟩

def resultTable : Except String Table → Table
  | Except.ok t => t
  | Except.error _ => emptyTable

def resultStore : Except String (Store × ℕ) → Store × ℕ
  | Except.ok p => p
  | Except.error _ => (⟨[]⟩, 0)

/-- C2 counterexample: with volume `0` and `foreign_net = 200` the merge
succeeds and derives an infinite ratio, not a null one. -/
theorem c2_counterexample :
    exceptErr (merge_price_institution_daytrade priceZeroVol
      (some instZeroVol) none "2330.TW" "Date") = false
    ∧ getCell ((resultTable (merge_price_institution_daytrade priceZeroVol
        (some instZeroVol) none "2330.TW" "Date")).rows.getD 1 [])
        "Volume" = CellVal.num 0
    ∧ getCell ((resultTable (merge_price_institution_daytrade priceZeroVol
        (some instZeroVol) none "2330.TW" "Date")).rows.getD 1 [])
        "foreign_net_ratio" = CellVal.inf
    ∧ ¬CellVal.inf = CellVal.na := by
  refine ⟨by with_unfolding_all rfl, by with_unfolding_all rfl,
    by with_unfolding_all rfl, by decide⟩

theorem c1_witness :
    wPrice.rows.length ≤ wOut.rows.length
    ∧ wOut.rows.length = wPrice.rows.length
    ∧ ∃ orow ∈ wOut.rows,
        getCell orow "Close" = CellVal.num 10
        ∧ getCell orow "foreign_net" = CellVal.na := by
  have h := c1_merge_row_invariants wPrice (some wInst) none "2330.TW" "Date"
    wOut (by with_unfolding_all rfl)
  refine ⟨h.1, ?_, ?_⟩
  · apply h.2.1
    · intro a ha _ s hs
      have ha' : a = wInst := (Option.some.inj ha).symm
      subst ha'
      have hns : normSubE wInst (strip_symbol_suffix "2330.TW")
          findCodeColInst = Except.ok wSub := by with_unfolding_all rfl
      rw [hns] at hs
      have hs' : s = wSub := (Except.ok.inj hs).symm
      subst hs'
      intro v
      exact le_trans (List.length_filter_le _ _) (by decide)
    · intro a ha
      exact absurd ha (by simp)
  · obtain ⟨orow, ho, hfields, hnull⟩ := h.2.2 wInst wDf1 wSub rfl rfl
      (by decide) (by with_unfolding_all rfl) (by with_unfolding_all rfl)
      (by decide) (by decide)
      [("Date", CellVal.date 2024 1 2), ("Close", CellVal.num 10)]
      (by decide) (by with_unfolding_all rfl)
    exact ⟨orow, ho, hfields "Close" (CellVal.num 10) (by decide) (by decide),
      hnull "foreign_net" (by decide) (by decide) (by decide)⟩

theorem c2_witness :
    (deriveRatios tRatioW).rows.length = tRatioW.rows.length
    ∧ divCell (CellVal.num 200) (CellVal.num 0) = CellVal.inf
    ∧ divCell CellVal.na (CellVal.num 1000) = CellVal.na
    ∧ divCell (CellVal.num 200) (CellVal.num 1000)
        = CellVal.num (200 / 1000) := by
  have h := c2_ratio_semantics tRatioW "Volume" (by decide) (by decide)
    (by decide) (by decide)
  exact ⟨h.2.1, h.2.2.2.2.1 200 (by decide), h.2.2.1 (CellVal.num 1000),
    h.2.2.2.2.2.2.2 200 1000 (by decide)⟩

theorem c4_witness :
    merge_price_institution_daytrade wPrice (some wEmptyAux) none
      "2330.TW" "Date"
      = merge_price_institution_daytrade wPrice none none "2330.TW" "Date"
    ∧ merge_price_institution_daytrade wPrice none (some wEmptyAux)
      "2330.TW" "Date"
      = merge_price_institution_daytrade wPrice none none "2330.TW" "Date" := by
  have h := c4_empty_aux_equiv wPrice none wEmptyAux "2330.TW" "Date"
    (by decide)
  exact ⟨h.1, h.2⟩

/-- C6 counterexample: a code with leading whitespace and no internal `.`
does not round-trip — extraction strips it. -/
theorem c6_counterexample :
    strip_symbol_suffix (qualifyTW " 2330") = "2330"
    ∧ ¬(" 2330" = "2330")
    ∧ (" 2330").data.all (fun ch => decide (¬ch = '.')) = true := by
  refine ⟨by decide, by decide, by decide⟩

theorem c6_witness :
    strip_symbol_suffix (qualifyTW "2330") = "2330"
    ∧ strip_symbol_suffix "2330" = "2330"
    ∧ strip_symbol_suffix (strip_symbol_suffix "x. y")
        = strip_symbol_suffix "x. y" := by
  have h := c6_strip_symbol_suffix_props "2330" (by decide) (by decide)
  exact ⟨h.1, h.2.1, h.2.2 "x. y"⟩

theorem c7_witness :
    exceptErr (merge_price_institution_daytrade wPrice none none "2330.TW"
      "Date") = true ↔ (¬"Date" ∈ wPrice.cols ∧ wPrice.idx.isDate = false) := by
  refine c7_date_key_fatal_iff wPrice none none "2330.TW" "Date" ?_
    (fun a ha => nomatch ha) (fun a ha => nomatch ha)
  intro _ r hr
  rw [List.mem_singleton.mp hr]
  exact ⟨CellVal.date 2024 1 2, rfl⟩

theorem c9_witness :
    instCodePred "code" = true
    ∧ (auxFilter wAuxNoCode "2330" findCodeColInst).rows = []
    ∧ exceptErr (mergeAuxE wPrice "Date" wAuxNoCode "2330" findCodeColInst
        "_inst") = false := by
  have h1 := (c9_code_column_resolution wInst "2330" "Date" wPrice).1 "code"
    (by decide)
  have h2 := (c9_code_column_resolution wAuxNoCode "2330" "Date" wPrice).2.2
    (by decide)
  exact ⟨h1.1, h2.2.1, h2.2.2 (by decide)⟩

theorem c10_witness :
    readT (resultStore (mergeProg ⟨[wPrice, wInst]⟩ 0 (some 1) none
      "2330.TW" "Date")).1 0 = wPrice
    ∧ readT (resultStore (mergeProg ⟨[wPrice, wInst]⟩ 0 (some 1) none
      "2330.TW" "Date")).1 1 = wInst := by
  have h := c10_inputs_unmodified ⟨[wPrice, wInst]⟩ 0 (some 1) none
    "2330.TW" "Date"
    (resultStore (mergeProg ⟨[wPrice, wInst]⟩ 0 (some 1) none
      "2330.TW" "Date")).1
    (resultStore (mergeProg ⟨[wPrice, wInst]⟩ 0 (some 1) none
      "2330.TW" "Date")).2
    (by decide)
    (by intro x hx; injection hx with h'; rw [← h']; decide)
    (fun x hx => nomatch hx)
    (by with_unfolding_all rfl)
  exact ⟨h.1.trans (by rfl), (h.2.1 1 rfl).trans (by rfl)⟩
